import Mathlib

/-!
Shallow embedding of `src/pyatmo/climate.py` (Netatmo energy devices):
the entity model (`NetatmoHome`, `NetatmoRoom`, `NetatmoModule`,
`NetatmoSchedule`), the topology builder (the `__init__` constructors),
the status reconciler (`NetatmoHome.update` / `NetatmoModule.update` /
`NetatmoRoom.update`, including the cascade over bridged modules), the
registry (`AbstractClimate.process`) and the command interface
(`AsyncClimate.async_set_thermmode`).

Python dictionaries are modelled as association lists with first-match
lookup and replace-in-place insertion (Python dicts keep the position of
an overwritten key and append fresh keys).  `KeyError` and unbounded
recursion are modelled with `Option`: the reconciler takes a fuel
parameter, and a computation that raises `KeyError` or runs out of fuel
returns `none`; the Python run terminates with a given final state
exactly when some fuel produces `some` of that state.  Machine floats of
the payloads are carried opaquely (never computed with), so they are
modelled by `Int` values.
-/

namespace Pyatmo

/-- First-match lookup in an association list, i.e. `d[k]` of a Python
dict returning `none` instead of raising `KeyError`. -/
def dictGet {α : Type} (k : String) : List (String × α) → Option α
  | [] => none
  | (k', v) :: l => if k' = k then some v else dictGet k l

/-- `d[k] = v` on a Python dict: replace the value of an existing key in
place, otherwise append the new binding at the end. -/
def dictInsert {α : Type} (k : String) (v : α) : List (String × α) → List (String × α)
  | [] => [(k, v)]
  | (k', v') :: l => if k' = k then (k, v) :: l else (k', v') :: dictInsert k v l

theorem dictGet_dictInsert {α : Type} (k k' : String) (v : α) (l : List (String × α)) :
    dictGet k' (dictInsert k v l) = if k' = k then some v else dictGet k' l := by
  induction l with
  | nil =>
    by_cases h : k' = k
    · subst h; simp [dictGet, dictInsert]
    · simp [dictGet, dictInsert, h, Ne.symm h]
  | cons p l ih =>
    obtain ⟨k₀, v₀⟩ := p
    by_cases h0 : k₀ = k
    · subst h0
      by_cases h : k' = k₀
      · subst h; simp [dictGet, dictInsert]
      · simp [dictGet, dictInsert, h, Ne.symm h]
    · by_cases h : k₀ = k'
      · subst h
        have hk : ¬ k₀ = k := h0
        simp [dictGet, dictInsert, h0, hk]
      · simp [dictGet, dictInsert, h0, h, ih]

theorem dictGet_dictInsert_self {α : Type} (k : String) (v : α) (l : List (String × α)) :
    dictGet k (dictInsert k v l) = some v := by
  simp [dictGet_dictInsert]

theorem dictGet_dictInsert_ne {α : Type} {k k' : String} (v : α) (l : List (String × α))
    (h : k' ≠ k) : dictGet k' (dictInsert k v l) = dictGet k' l := by
  simp [dictGet_dictInsert, h]

theorem dictGet_isSome_mem {α : Type} {k : String} {l : List (String × α)} {v : α}
    (h : dictGet k l = some v) : k ∈ l.map Prod.fst := by
  induction l with
  | nil => simp [dictGet] at h
  | cons p l ih =>
    obtain ⟨k₀, v₀⟩ := p
    by_cases hk : k₀ = k
    · subst hk; exact List.mem_cons_self _ _
    · rw [dictGet, if_neg hk] at h
      exact List.mem_cons_of_mem _ (ih h)

theorem dictGet_eq_none_of_not_mem {α : Type} {k : String} {l : List (String × α)}
    (h : k ∉ l.map Prod.fst) : dictGet k l = none := by
  induction l with
  | nil => rfl
  | cons p l ih =>
    obtain ⟨k₀, v₀⟩ := p
    have h1 : k₀ ≠ k := by
      intro he; exact h (by rw [he]; exact List.mem_cons_self _ _)
    have h2 : k ∉ l.map Prod.fst := fun hm => h (List.mem_cons_of_mem _ hm)
    rw [dictGet, if_neg h1, ih h2]

theorem map_fst_dictInsert_mem {α : Type} {k : String} {l : List (String × α)} (v : α)
    (h : k ∈ l.map Prod.fst) : (dictInsert k v l).map Prod.fst = l.map Prod.fst := by
  induction l with
  | nil => simp at h
  | cons p l ih =>
    obtain ⟨k₀, v₀⟩ := p
    by_cases hk : k₀ = k
    · subst hk; simp [dictInsert]
    · have hm : k ∈ l.map Prod.fst := by
        rcases List.mem_cons.mp h with h1 | h1
        · exact absurd h1.symm hk
        · exact h1
      simp [dictInsert, hk, ih hm]

theorem dictInsert_not_mem {α : Type} {k : String} {l : List (String × α)} (v : α)
    (h : k ∉ l.map Prod.fst) : dictInsert k v l = l ++ [(k, v)] := by
  induction l with
  | nil => rfl
  | cons p l ih =>
    obtain ⟨k₀, v₀⟩ := p
    have h1 : k₀ ≠ k := by
      intro he; exact h (by rw [he]; exact List.mem_cons_self _ _)
    have h2 : k ∉ l.map Prod.fst := fun hm => h (List.mem_cons_of_mem _ hm)
    simp [dictInsert, h1, ih h2]

/-- Two association lists with the same (duplicate-free) key sequence and
the same lookups are equal. -/
theorem dict_ext {α : Type} : ∀ {l₁ l₂ : List (String × α)},
    l₁.map Prod.fst = l₂.map Prod.fst → (l₁.map Prod.fst).Nodup →
    (∀ k, dictGet k l₁ = dictGet k l₂) → l₁ = l₂
  | [], [], _, _, _ => rfl
  | [], (k₂, v₂) :: l₂, hk, _, _ => by simp at hk
  | (k₁, v₁) :: l₁, [], hk, _, _ => by simp at hk
  | (k₁, v₁) :: l₁, (k₂, v₂) :: l₂, hk, hnd, hget => by
    have hkk : k₁ = k₂ := by
      have := congrArg (fun t => t.head?) hk
      simpa using this
    subst hkk
    have htl : l₁.map Prod.fst = l₂.map Prod.fst := by
      have := congrArg (fun t => t.tail) hk
      simpa using this
    rw [List.map_cons] at hnd
    have hnd1 : k₁ ∉ l₁.map Prod.fst := (List.nodup_cons.mp hnd).1
    have hnd2 : (l₁.map Prod.fst).Nodup := (List.nodup_cons.mp hnd).2
    have h1 := hget k₁
    rw [dictGet, dictGet, if_pos rfl, if_pos rfl] at h1
    have hv : v₁ = v₂ := by injection h1
    subst hv
    have : l₁ = l₂ := by
      refine dict_ext htl hnd2 (fun k => ?_)
      by_cases hk1 : k = k₁
      · subst hk1
        rw [dictGet_eq_none_of_not_mem hnd1, dictGet_eq_none_of_not_mem]
        rw [← htl]
        exact hnd1
      · have hne : k₁ ≠ k := fun h => hk1 h.symm
        have := hget k
        rw [dictGet, dictGet, if_neg hne, if_neg hne] at this
        exact this
    rw [this]

/-- `NetatmoModule` (climate.py, `@dataclass NetatmoModule`).  The `home`
back-reference is not stored: the whole home state is threaded through
every operation instead.  `device_type` holds the raw `module["type"]`
string, exactly as `__init__` stores it. -/
structure NetatmoModule where
  entity_id : String
  name : String
  device_type : String
  room_id : Option String
  reachable : Bool
  bridge : Option String
  modules : List String
  battery_state : Option String := none
  battery_level : Option Int := none
  boiler_status : Option Bool := none
deriving DecidableEq, Repr

/-- `NetatmoRoom`.  `modules` holds the construction-time filtered copy of
the home's modules map; the source aliases the `NetatmoModule` objects,
and no modelled operation reads `Room.modules` after construction. -/
structure NetatmoRoom where
  entity_id : String
  name : String
  modules : List (String × NetatmoModule)
  reachable : Bool := false
  therm_setpoint_temperature : Option Int := none
  therm_setpoint_mode : Option String := none
  therm_measured_temperature : Option Int := none
  heating_power_request : Option Int := none
deriving DecidableEq, Repr

/-- `NetatmoSchedule`. -/
structure NetatmoSchedule where
  entity_id : String
  name : String
  home_id : String
  selected : Bool
  away_temp : Option Int
  hg_temp : Option Int
deriving DecidableEq, Repr

/-- `NetatmoHome`: the object graph for one home. -/
structure NetatmoHome where
  entity_id : String
  name : String
  rooms : List (String × NetatmoRoom)
  modules : List (String × NetatmoModule)
  schedules : List (String × NetatmoSchedule)
deriving DecidableEq, Repr

/-- A module descriptor of a topology (`/homesdata`) payload.  `id`,
`name` and `type` are required keys (`module["id"]` etc. would raise
`KeyError`), the rest are `.get` lookups with defaults. -/
structure RawModule where
  id : String
  name : String
  type : String
  room_id : Option String := none
  bridge : Option String := none
  modules_bridged : List String := []
deriving DecidableEq, Repr

/-- A room descriptor of a topology payload. -/
structure RawRoom where
  id : String
  name : String
  module_ids : List String := []
deriving DecidableEq, Repr

/-- A schedule descriptor of a topology payload. -/
structure RawSchedule where
  id : String
  name : String
  selected : Option Bool := none
  hg_temp : Option Int := none
  away_temp : Option Int := none
deriving DecidableEq, Repr

/-- A home descriptor of a topology payload. -/
structure RawHome where
  id : String
  name : Option String := none
  modules : List RawModule := []
  rooms : List RawRoom := []
  schedules : List RawSchedule := []
deriving DecidableEq, Repr

/-- A status dict as passed to `NetatmoModule.update` / `NetatmoRoom.update`:
every key is optional (`raw_data.get(...)`).  The same dict is handed to
modules and rooms by the cascade, so it carries both field sets. -/
structure StatusRaw where
  id : Option String := none
  reachable : Option Bool := none
  boiler_status : Option Bool := none
  battery_level : Option Int := none
  battery_state : Option String := none
  therm_measured_temperature : Option Int := none
  therm_setpoint_mode : Option String := none
  therm_setpoint_temperature : Option Int := none
deriving DecidableEq, Repr

/-- The `home` object of a status (`/homestatus`) payload; `id` is
required at the registry (`raw_data["home"]["id"]`), `modules` and
`rooms` default to `[]`. -/
structure StatusHome where
  id : String
  modules : List StatusRaw := []
  rooms : List StatusRaw := []
deriving DecidableEq, Repr

/-- A full status payload: the required `errors` list (each entry
modelled by its optional `"id"` key) and the `home` object. -/
structure StatusPayload where
  home : StatusHome
  errors : List (Option String) := []
deriving DecidableEq, Repr

/-- `NetatmoModule.__init__`: `reachable` starts false, status fields
unset, structural fields copied from the descriptor. -/
def NetatmoModule.ofRaw (m : RawModule) : NetatmoModule :=
  { entity_id := m.id
    name := m.name
    device_type := m.type
    room_id := m.room_id
    reachable := false
    bridge := m.bridge
    modules := m.modules_bridged }

/-- `NetatmoRoom.__init__`: keep the entries of the already-built modules
map whose key occurs in the descriptor's `module_ids`. -/
def NetatmoRoom.ofRaw (allModules : List (String × NetatmoModule)) (r : RawRoom) :
    NetatmoRoom :=
  { entity_id := r.id
    name := r.name
    modules := allModules.filter (fun kv => r.module_ids.contains kv.1) }

/-- `NetatmoSchedule.__init__`. -/
def NetatmoSchedule.ofRaw (home_id : String) (s : RawSchedule) : NetatmoSchedule :=
  { entity_id := s.id
    name := s.name
    home_id := home_id
    selected := s.selected.getD false
    hg_temp := s.hg_temp
    away_temp := s.away_temp }

/-- `NetatmoHome.__init__`: modules first, then rooms (filtered against
the modules map), then schedules; each map is a dict comprehension,
i.e. repeated dict insertion starting from the empty dict. -/
def NetatmoHome.ofRaw (d : RawHome) : NetatmoHome :=
  let mods := d.modules.foldl (fun acc m => dictInsert m.id (NetatmoModule.ofRaw m) acc) []
  { entity_id := d.id
    name := d.name.getD "Unknown"
    modules := mods
    rooms := d.rooms.foldl (fun acc r => dictInsert r.id (NetatmoRoom.ofRaw mods r) acc) []
    schedules :=
      d.schedules.foldl (fun acc s => dictInsert s.id (NetatmoSchedule.ofRaw d.id s) acc) [] }

/-- The field-assignment prefix of `NetatmoModule.update`: overwrite the
four status fields with payload value or default. -/
def NetatmoModule.applyRaw (m : NetatmoModule) (d : StatusRaw) : NetatmoModule :=
  { m with
    reachable := d.reachable.getD false
    boiler_status := d.boiler_status
    battery_level := d.battery_level
    battery_state := d.battery_state }

/-- `NetatmoRoom.update`: overwrite the four room status fields with
payload value or default. -/
def NetatmoRoom.applyRaw (r : NetatmoRoom) (d : StatusRaw) : NetatmoRoom :=
  { r with
    reachable := d.reachable.getD false
    therm_measured_temperature := d.therm_measured_temperature
    therm_setpoint_mode := d.therm_setpoint_mode
    therm_setpoint_temperature := d.therm_setpoint_temperature }

/-- Python truthiness of an optional string (`if module.room_id:`):
`None` and the empty string are falsy. -/
def truthy : Option String → Option String
  | some s => if s = "" then none else some s
  | none => none

/-- The empty dict `{}` passed by the errors loop. -/
def emptyRaw : StatusRaw := {}

/-- The pending control of the status reconciler: one module update, the
cascade loop over bridged ids, the three loops of `NetatmoHome.update`,
and the whole `NetatmoHome.update`. -/
inductive Task where
  | mod : String → StatusRaw → Task
  | casc : List String → StatusRaw → Task
  | errs : List (Option String) → Task
  | smods : List StatusRaw → Task
  | srooms : List StatusRaw → Task
  | homeUpd : StatusPayload → Task
deriving DecidableEq, Repr

/-- The status reconciler.  `run fuel task st` performs `task` on home
state `st`; `none` models `KeyError` or exhausted fuel.  The source's
`NetatmoModule.update` recursion is not guarded by a visited set, so the
fuel is genuinely needed: on cyclic bridge graphs no fuel suffices.

`.mod mid d` is `home.modules[mid].update(d)`; `.casc ids d` is the
cascade loop `for module_id in self.modules: ...` run for the ids `ids`
with raw payload `d`; `.errs`, `.smods`, `.srooms` are the three loops
of `NetatmoHome.update`, and `.homeUpd p` is `NetatmoHome.update(p)`. -/
def run : Nat → Task → NetatmoHome → Option NetatmoHome
  | 0, _, _ => none
  | fuel+1, .mod mid d, st =>
    match dictGet mid st.modules with
    | none => none
    | some m =>
      let m' := m.applyRaw d
      let st1 : NetatmoHome := { st with modules := dictInsert mid m' st.modules }
      if m'.reachable then some st1 else run fuel (.casc m'.modules d) st1
  | _+1, .casc [] _, st => some st
  | fuel+1, .casc (mid :: rest) d, st =>
    match dictGet mid st.modules with
    | none => none
    | some m =>
      match run fuel (.mod mid d) st with
      | none => none
      | some st1 =>
        match truthy m.room_id with
        | none => run fuel (.casc rest d) st1
        | some rid =>
          match dictGet rid st1.rooms with
          | none => none
          | some r =>
            run fuel (.casc rest d)
              { st1 with rooms := dictInsert rid (r.applyRaw d) st1.rooms }
  | _+1, .errs [], st => some st
  | fuel+1, .errs (e :: rest), st =>
    match e with
    | none => none
    | some i =>
      match run fuel (.mod i emptyRaw) st with
      | none => none
      | some st1 => run fuel (.errs rest) st1
  | _+1, .smods [], st => some st
  | fuel+1, .smods (e :: rest), st =>
    match e.id with
    | none => none
    | some i =>
      match run fuel (.mod i e) st with
      | none => none
      | some st1 => run fuel (.smods rest) st1
  | _+1, .srooms [], st => some st
  | fuel+1, .srooms (e :: rest), st =>
    match e.id with
    | none => none
    | some i =>
      match dictGet i st.rooms with
      | none => none
      | some r =>
        run fuel (.srooms rest) { st with rooms := dictInsert i (r.applyRaw e) st.rooms }
  | fuel+1, .homeUpd p, st =>
    match run fuel (.errs p.errors) st with
    | none => none
    | some st1 =>
      match run fuel (.smods p.home.modules) st1 with
      | none => none
      | some st2 => run fuel (.srooms p.home.rooms) st2

/-- `NetatmoModule.update(d)` called on the module with id `mid`. -/
def NetatmoModule.update (fuel : Nat) (st : NetatmoHome) (mid : String) (d : StatusRaw) :
    Option NetatmoHome :=
  run fuel (.mod mid d) st

/-- `NetatmoHome.update(p)`: the errors loop, the `home.modules` loop,
then the `home.rooms` loop. -/
def NetatmoHome.update (fuel : Nat) (st : NetatmoHome) (p : StatusPayload) :
    Option NetatmoHome :=
  run fuel (.homeUpd p) st

/-- A sequence of status reconciliations applied in order. -/
def reconcile (fuel : Nat) (st : NetatmoHome) : List StatusPayload → Option NetatmoHome
  | [] => some st
  | p :: ps =>
    match NetatmoHome.update fuel st p with
    | none => none
    | some st1 => reconcile fuel st1 ps

/-- An entry of the registry's `homes` map: either a real `NetatmoHome`
(as installed by the topology branch of `process`) or a plain dict (as
created by the class-level `defaultdict(dict)` when a status payload
arrives for an id that is absent). -/
inductive RegEntry where
  | home : NetatmoHome → RegEntry
  | rawDict : StatusPayload → RegEntry
deriving DecidableEq, Repr

/-- The registry state (`AbstractClimate`): `usesDefault` is true while
`self.homes` is still the class-level `defaultdict(dict)`, and false once
the topology branch has replaced it with a plain dict. -/
structure Registry where
  usesDefault : Bool
  homes : List (String × RegEntry)
deriving DecidableEq, Repr

/-- A raw payload as dispatched by `process`: it has a `home` key, or
else a `homes` key, or neither. -/
inductive Payload where
  | status : StatusPayload → Payload
  | topology : List RawHome → Payload
  | other : Payload
deriving Repr

/-- The dict comprehension of the topology branch of `process`. -/
def buildHomes (items : List RawHome) : List (String × RegEntry) :=
  items.foldl (fun acc it => dictInsert it.id (RegEntry.home (NetatmoHome.ofRaw it)) acc) []

/-- `AbstractClimate.process`.  The status branch does
`self.homes[raw_data["home"]["id"]].update(raw_data)`: on a registered
home that is `NetatmoHome.update`; on a missing id, the class-level
`defaultdict` silently creates `{}` and `dict.update` merges the payload
into it (no exception), while after a topology rebuild (plain dict) the
lookup raises `KeyError` (`none`).  On a plain-dict entry, `dict.update`
replaces the `home` and `errors` keys wholesale. -/
def process (fuel : Nat) (reg : Registry) : Payload → Option Registry
  | .status p =>
    match dictGet p.home.id reg.homes with
    | some (.home h) =>
      match run fuel (.homeUpd p) h with
      | none => none
      | some h' =>
        some { reg with homes := dictInsert p.home.id (.home h') reg.homes }
    | some (.rawDict _) =>
      some { reg with homes := dictInsert p.home.id (.rawDict p) reg.homes }
    | none =>
      if reg.usesDefault then
        some { reg with homes := dictInsert p.home.id (.rawDict p) reg.homes }
      else none
  | .topology items => some { usesDefault := false, homes := buildHomes items }
  | .other => some reg

/-- `NetatmoHome.get_selected_schedule`: the first schedule (in dict
insertion order) with `selected` true, else `None`. -/
def NetatmoHome.get_selected_schedule (h : NetatmoHome) : Option NetatmoSchedule :=
  (h.schedules.find? (fun kv => kv.2.selected)).map Prod.snd

/-- `NetatmoHome.is_valid_schedule`. -/
def NetatmoHome.is_valid_schedule (h : NetatmoHome) (schedule_id : String) : Bool :=
  (dictGet schedule_id h.schedules).isSome

/-- `NetatmoHome.get_hg_temp`. -/
def NetatmoHome.get_hg_temp (h : NetatmoHome) : Option Int :=
  match h.get_selected_schedule with
  | none => none
  | some s => s.hg_temp

/-- `NetatmoHome.get_away_temp`. -/
def NetatmoHome.get_away_temp (h : NetatmoHome) : Option Int :=
  match h.get_selected_schedule with
  | none => none
  | some s => s.away_temp

/-- Exceptions raised by the command interface. -/
inductive ApiError where
  | invalidHome : ApiError
  | noSchedule : ApiError
  | attributeError : ApiError
deriving DecidableEq, Repr

/-- The request body posted to the set-therm-mode endpoint. -/
structure PostParams where
  home_id : String
  mode : String
  endtime : Option String := none
  schedule_id : Option String := none
deriving DecidableEq, Repr

/-- The `post_params` construction of `async_set_thermmode`: `endtime`
only when given and mode is `hg` or `away`; `schedule_id` only when given
and mode is `schedule`. -/
def buildPostParams (home_id m : String) (end_time : Option Int)
    (schedule_id : Option String) : PostParams :=
  let p : PostParams := { home_id := home_id, mode := m }
  let p :=
    match end_time with
    | some t => if m = "hg" ∨ m = "away" then { p with endtime := some (toString t) } else p
    | none => p
  match schedule_id with
  | some sid => if m = "schedule" then { p with schedule_id := some sid } else p
  | none => p

/-- `AsyncClimate.async_set_thermmode`, up to the outbound request: the
transport call is external, so the function returns the request body it
would post.  Checks in source order: unknown home id raises `InvalidHome`;
a given but invalid schedule id raises `NoSchedule`; an absent mode raises
`NoSchedule`.  (On a registry polluted by the `defaultdict`, a plain-dict
entry has no `is_valid_schedule`, which is an `AttributeError`.) -/
def async_set_thermmode (reg : Registry) (home_id : String) (mode : Option String)
    (end_time : Option Int) (schedule_id : Option String) : Except ApiError PostParams :=
  match dictGet home_id reg.homes with
  | none => .error .invalidHome
  | some entry =>
    let checkMode : Except ApiError PostParams :=
      match mode with
      | none => .error .noSchedule
      | some m => .ok (buildPostParams home_id m end_time schedule_id)
    match schedule_id with
    | none => checkMode
    | some sid =>
      match entry with
      | .rawDict _ => .error .attributeError
      | .home h =>
        if h.is_valid_schedule sid then checkMode else .error .noSchedule

/-! ### Structural frames

A status update overwrites exactly the four status fields of a module
(resp. room) and depends on the previous value only through the other,
never-mutated fields.  The *frame* of a value forgets the status fields;
two values with equal frames react identically to every raw payload. -/

/-- The module fields never written by `NetatmoModule.update`. -/
def NetatmoModule.frame (m : NetatmoModule) : NetatmoModule :=
  { m with
    reachable := false
    battery_state := none
    battery_level := none
    boiler_status := none }

/-- The room fields never written by `NetatmoRoom.update` (note that
`heating_power_request` is one of them). -/
def NetatmoRoom.frame (r : NetatmoRoom) : NetatmoRoom :=
  { r with
    reachable := false
    therm_setpoint_temperature := none
    therm_setpoint_mode := none
    therm_measured_temperature := none }

theorem NetatmoModule.frame_applyRaw (m : NetatmoModule) (d : StatusRaw) :
    (m.applyRaw d).frame = m.frame := rfl

theorem roomFrame_applyRaw (r : NetatmoRoom) (d : StatusRaw) :
    (r.applyRaw d).frame = r.frame := rfl

theorem NetatmoModule.applyRaw_applyRaw (m : NetatmoModule) (d₁ d₂ : StatusRaw) :
    (m.applyRaw d₁).applyRaw d₂ = m.applyRaw d₂ := rfl

theorem roomApplyRaw_applyRaw (r : NetatmoRoom) (d₁ d₂ : StatusRaw) :
    (r.applyRaw d₁).applyRaw d₂ = r.applyRaw d₂ := rfl

theorem NetatmoModule.applyRaw_of_frame (m : NetatmoModule) (d : StatusRaw) :
    (m.frame).applyRaw d = m.applyRaw d := by
  cases m; rfl

theorem roomApplyRaw_of_frame (r : NetatmoRoom) (d : StatusRaw) :
    (r.frame).applyRaw d = r.applyRaw d := by
  cases r; rfl

theorem NetatmoModule.applyRaw_congr {m₁ m₂ : NetatmoModule} (d : StatusRaw)
    (h : m₁.frame = m₂.frame) : m₁.applyRaw d = m₂.applyRaw d := by
  rw [← NetatmoModule.applyRaw_of_frame m₁ d, ← NetatmoModule.applyRaw_of_frame m₂ d, h]

theorem roomApplyRaw_congr {r₁ r₂ : NetatmoRoom} (d : StatusRaw)
    (h : r₁.frame = r₂.frame) : r₁.applyRaw d = r₂.applyRaw d := by
  rw [← roomApplyRaw_of_frame r₁ d, ← roomApplyRaw_of_frame r₂ d, h]

theorem NetatmoModule.frame_room_id {m₁ m₂ : NetatmoModule} (h : m₁.frame = m₂.frame) :
    m₁.room_id = m₂.room_id := by
  have := congrArg NetatmoModule.room_id h
  exact this

theorem NetatmoModule.frame_modules {m₁ m₂ : NetatmoModule} (h : m₁.frame = m₂.frame) :
    m₁.modules = m₂.modules := by
  have := congrArg NetatmoModule.modules h
  exact this

/-- Two home states that agree on everything except the status fields of
their modules and rooms: equal scalar fields and schedules, the same key
sequences, and pointwise frame-equal map entries. -/
structure FrameEq (s t : NetatmoHome) : Prop where
  eid : t.entity_id = s.entity_id
  hname : t.name = s.name
  scheds : t.schedules = s.schedules
  mkeys : t.modules.map Prod.fst = s.modules.map Prod.fst
  rkeys : t.rooms.map Prod.fst = s.rooms.map Prod.fst
  mframe : ∀ k, (dictGet k t.modules).map NetatmoModule.frame
      = (dictGet k s.modules).map NetatmoModule.frame
  rframe : ∀ k, (dictGet k t.rooms).map NetatmoRoom.frame
      = (dictGet k s.rooms).map NetatmoRoom.frame

theorem FrameEq.refl (s : NetatmoHome) : FrameEq s s :=
  ⟨rfl, rfl, rfl, rfl, rfl, fun _ => rfl, fun _ => rfl⟩

theorem FrameEq.trans {s t u : NetatmoHome} (h1 : FrameEq s t) (h2 : FrameEq t u) :
    FrameEq s u :=
  ⟨h2.eid.trans h1.eid, h2.hname.trans h1.hname, h2.scheds.trans h1.scheds,
   h2.mkeys.trans h1.mkeys, h2.rkeys.trans h1.rkeys,
   fun k => (h2.mframe k).trans (h1.mframe k),
   fun k => (h2.rframe k).trans (h1.rframe k)⟩

theorem FrameEq.symm {s t : NetatmoHome} (h : FrameEq s t) : FrameEq t s :=
  ⟨h.eid.symm, h.hname.symm, h.scheds.symm, h.mkeys.symm, h.rkeys.symm,
   fun k => (h.mframe k).symm, fun k => (h.rframe k).symm⟩

/-! ### Write traces

A successful reconciliation is a sequence of single-entry overwrites,
each recorded as a key together with the raw dict it applied.  Replaying
a trace on a frame-equal state performs exactly the same writes. -/

/-- One recorded write: a module update `modules[k].update(d)`'s field
assignment, or a room update `rooms[k].update(d)`. -/
inductive Wr where
  | wmod : String → StatusRaw → Wr
  | wroom : String → StatusRaw → Wr
deriving DecidableEq, Repr

/-- The raw dict a write applied. -/
def Wr.raw : Wr → StatusRaw
  | .wmod _ d => d
  | .wroom _ d => d

/-- Replay one write on a state (a write to an absent key, which never
occurs in a trace of a successful run, is a no-op). -/
def applyW (st : NetatmoHome) : Wr → NetatmoHome
  | .wmod k d =>
    match dictGet k st.modules with
    | none => st
    | some v => { st with modules := dictInsert k (v.applyRaw d) st.modules }
  | .wroom k d =>
    match dictGet k st.rooms with
    | none => st
    | some v => { st with rooms := dictInsert k (v.applyRaw d) st.rooms }

/-- Replay a whole trace. -/
def applyTrace (st : NetatmoHome) (ws : List Wr) : NetatmoHome :=
  ws.foldl applyW st

/-- The raw dicts a task can ever hand to a field overwrite. -/
def Task.raws : Task → List StatusRaw
  | .mod _ d => [d]
  | .casc _ d => [d]
  | .errs _ => [emptyRaw]
  | .smods xs => xs
  | .srooms xs => xs
  | .homeUpd p => emptyRaw :: (p.home.modules ++ p.home.rooms)

theorem applyTrace_append (st : NetatmoHome) (ws₁ ws₂ : List Wr) :
    applyTrace st (ws₁ ++ ws₂) = applyTrace (applyTrace st ws₁) ws₂ :=
  List.foldl_append ..

theorem applyTrace_cons (st : NetatmoHome) (w : Wr) (ws : List Wr) :
    applyTrace st (w :: ws) = applyTrace (applyW st w) ws := rfl

theorem frameEq_applyW_self (s : NetatmoHome) (w : Wr) : FrameEq s (applyW s w) := by
  cases w with
  | wmod k d =>
    cases hm : dictGet k s.modules with
    | none => rw [Pyatmo.applyW, hm]; exact FrameEq.refl s
    | some v =>
      rw [Pyatmo.applyW, hm]
      refine ⟨rfl, rfl, rfl, ?_, rfl, ?_, fun _ => rfl⟩
      · exact map_fst_dictInsert_mem _ (dictGet_isSome_mem hm)
      · intro k'
        by_cases hk : k' = k
        · subst hk
          simp [dictGet_dictInsert_self, hm, NetatmoModule.frame_applyRaw]
        · simp [dictGet_dictInsert_ne _ _ hk]
  | wroom k d =>
    cases hm : dictGet k s.rooms with
    | none => rw [Pyatmo.applyW, hm]; exact FrameEq.refl s
    | some v =>
      rw [Pyatmo.applyW, hm]
      refine ⟨rfl, rfl, rfl, rfl, ?_, fun _ => rfl, ?_⟩
      · exact map_fst_dictInsert_mem _ (dictGet_isSome_mem hm)
      · intro k'
        by_cases hk : k' = k
        · subst hk
          simp [dictGet_dictInsert_self, hm, roomFrame_applyRaw]
        · simp [dictGet_dictInsert_ne _ _ hk]

theorem frameEq_applyW_congr {s t : NetatmoHome} (w : Wr) (h : FrameEq s t) :
    FrameEq (applyW s w) (applyW t w) := by
  have h1 := frameEq_applyW_self s w
  have h2 := frameEq_applyW_self t w
  exact (h1.symm.trans h).trans h2

theorem frameEq_applyTrace_self (s : NetatmoHome) (ws : List Wr) :
    FrameEq s (applyTrace s ws) := by
  induction ws generalizing s with
  | nil => exact FrameEq.refl s
  | cons w ws ih =>
    rw [applyTrace_cons]
    exact (frameEq_applyW_self s w).trans (ih (applyW s w))

theorem frameEq_applyTrace_congr {s t : NetatmoHome} (ws : List Wr) (h : FrameEq s t) :
    FrameEq (applyTrace s ws) (applyTrace t ws) := by
  have h1 := frameEq_applyTrace_self s ws
  have h2 := frameEq_applyTrace_self t ws
  exact (h1.symm.trans h).trans h2

theorem frameEq_get_mod {s t : NetatmoHome} (h : FrameEq s t) {k : String}
    {m : NetatmoModule} (hm : dictGet k s.modules = some m) :
    ∃ mt, dictGet k t.modules = some mt ∧ mt.frame = m.frame := by
  have hf := h.mframe k
  rw [hm] at hf
  cases hg : dictGet k t.modules with
  | none => rw [hg] at hf; simp at hf
  | some mt =>
    rw [hg] at hf
    simp only [Option.map_some'] at hf
    exact ⟨mt, rfl, by injection hf⟩

theorem frameEq_get_room {s t : NetatmoHome} (h : FrameEq s t) {k : String}
    {r : NetatmoRoom} (hr : dictGet k s.rooms = some r) :
    ∃ rt, dictGet k t.rooms = some rt ∧ rt.frame = r.frame := by
  have hf := h.rframe k
  rw [hr] at hf
  cases hg : dictGet k t.rooms with
  | none => rw [hg] at hf; simp at hf
  | some rt =>
    rw [hg] at hf
    simp only [Option.map_some'] at hf
    exact ⟨rt, rfl, by injection hf⟩

/-- Simulation along write traces: a successful run decomposes into a
trace of single-entry overwrites (each using a raw dict of the task),
and the same run from any frame-equal start state succeeds and performs
exactly that trace. -/
theorem run_sim : ∀ (fuel : Nat) (task : Task) (st st' : NetatmoHome),
    run fuel task st = some st' → ∀ t, FrameEq st t →
    ∃ ws : List Wr, st' = applyTrace st ws ∧ (∀ w ∈ ws, w.raw ∈ task.raws) ∧
      run fuel task t = some (applyTrace t ws) := by
  intro fuel
  induction fuel with
  | zero => intro task st st' h; simp [run] at h
  | succ fuel ih =>
    intro task st st' h t ht
    cases task with
    | mod mid d =>
      cases hm : dictGet mid st.modules with
      | none => simp [run, hm] at h
      | some m =>
        simp only [run, hm] at h
        obtain ⟨mt, hmt, hfr⟩ := frameEq_get_mod ht hm
        have happ : mt.applyRaw d = m.applyRaw d := NetatmoModule.applyRaw_congr d hfr
        have hW : applyW st (.wmod mid d)
            = { st with modules := dictInsert mid (m.applyRaw d) st.modules } := by
          simp only [applyW, hm]
        have hWt : applyW t (.wmod mid d)
            = { t with modules := dictInsert mid (m.applyRaw d) t.modules } := by
          simp only [applyW, hmt, happ]
        split at h
        next hreach =>
          injection h with h
          refine ⟨[.wmod mid d], ?_, ?_, ?_⟩
          · rw [← h]
            simp [applyTrace, hW]
          · intro w hw
            rw [List.mem_singleton] at hw
            subst hw
            simp [Wr.raw, Task.raws]
          · simp only [run, hmt, happ, if_pos hreach]
            rw [show applyTrace t [Wr.wmod mid d] = applyW t (.wmod mid d) from rfl, hWt]
        next hreach =>
          have hFE1 : FrameEq { st with modules := dictInsert mid (m.applyRaw d) st.modules }
              (applyW t (.wmod mid d)) := by
            rw [← hW]
            exact frameEq_applyW_congr _ ht
          obtain ⟨ws2, hst', hraws, hrunt⟩ :=
            ih (.casc (m.applyRaw d).modules d) _ st' h (applyW t (.wmod mid d)) hFE1
          refine ⟨.wmod mid d :: ws2, ?_, ?_, ?_⟩
          · rw [applyTrace_cons, hW]
            exact hst'
          · intro w hw
            rcases List.mem_cons.mp hw with hw | hw
            · subst hw; simp [Wr.raw, Task.raws]
            · have := hraws w hw
              simpa [Task.raws] using this
          · simp only [run, hmt, happ, if_neg hreach]
            rw [applyTrace_cons, hWt]
            rw [hWt] at hrunt
            exact hrunt
    | casc ids d =>
      cases ids with
      | nil =>
        simp only [run] at h
        injection h with h
        subst h
        exact ⟨[], rfl, by simp, by simp [run, applyTrace]⟩
      | cons mid rest =>
        cases hm : dictGet mid st.modules with
        | none => simp [run, hm] at h
        | some m =>
          simp only [run, hm] at h
          cases h1 : run fuel (.mod mid d) st with
          | none => rw [h1] at h; exact Option.noConfusion h
          | some st1 =>
            simp only [h1] at h
            obtain ⟨ws1, hst1, hraws1, hrunt1⟩ := ih (.mod mid d) st st1 h1 t ht
            obtain ⟨mt, hmt, hfr⟩ := frameEq_get_mod ht hm
            have hrid : mt.room_id = m.room_id := NetatmoModule.frame_room_id hfr
            have hFE1 : FrameEq st1 (applyTrace t ws1) := by
              rw [hst1]
              exact frameEq_applyTrace_congr ws1 ht
            cases hro : truthy m.room_id with
            | none =>
              simp only [hro] at h
              obtain ⟨ws2, hst2, hraws2, hrunt2⟩ :=
                ih (.casc rest d) st1 st' h (applyTrace t ws1) hFE1
              refine ⟨ws1 ++ ws2, ?_, ?_, ?_⟩
              · rw [applyTrace_append, ← hst1]
                exact hst2
              · intro w hw
                rcases List.mem_append.mp hw with hw | hw
                · have := hraws1 w hw
                  simpa [Task.raws] using this
                · have := hraws2 w hw
                  simpa [Task.raws] using this
              · simp only [run, hmt, hrunt1, hrid, hro]
                rw [applyTrace_append]
                exact hrunt2
            | some rid =>
              simp only [hro] at h
              cases hr1 : dictGet rid st1.rooms with
              | none => rw [hr1] at h; exact Option.noConfusion h
              | some r =>
                simp only [hr1] at h
                have hW : applyW st1 (.wroom rid d)
                    = { st1 with rooms := dictInsert rid (r.applyRaw d) st1.rooms } := by
                  simp only [applyW, hr1]
                obtain ⟨rt, hrt, hfrr⟩ := frameEq_get_room hFE1 hr1
                have happr : rt.applyRaw d = r.applyRaw d := roomApplyRaw_congr d hfrr
                have hWt : applyW (applyTrace t ws1) (.wroom rid d)
                    = { applyTrace t ws1 with
                        rooms := dictInsert rid (r.applyRaw d) (applyTrace t ws1).rooms } := by
                  simp only [applyW, hrt, happr]
                have hFE2 : FrameEq { st1 with rooms := dictInsert rid (r.applyRaw d) st1.rooms }
                    (applyW (applyTrace t ws1) (.wroom rid d)) := by
                  rw [← hW]
                  exact frameEq_applyW_congr _ hFE1
                obtain ⟨ws2, hst2, hraws2, hrunt2⟩ :=
                  ih (.casc rest d) _ st' h _ hFE2
                refine ⟨ws1 ++ .wroom rid d :: ws2, ?_, ?_, ?_⟩
                · rw [applyTrace_append, ← hst1, applyTrace_cons, hW]
                  exact hst2
                · intro w hw
                  rcases List.mem_append.mp hw with hw | hw
                  · have := hraws1 w hw
                    simpa [Task.raws] using this
                  · rcases List.mem_cons.mp hw with hw | hw
                    · subst hw; simp [Wr.raw, Task.raws]
                    · have := hraws2 w hw
                      simpa [Task.raws] using this
                · simp only [run, hmt, hrunt1, hrid, hro, hrt, happr]
                  rw [applyTrace_append, applyTrace_cons, hWt]
                  rw [hWt] at hrunt2
                  exact hrunt2
    | errs es =>
      cases es with
      | nil =>
        simp only [run] at h
        injection h with h
        subst h
        exact ⟨[], rfl, by simp, by simp [run, applyTrace]⟩
      | cons e rest =>
        cases e with
        | none => simp [run] at h
        | some i =>
          simp only [run] at h
          cases h1 : run fuel (.mod i emptyRaw) st with
          | none => rw [h1] at h; exact Option.noConfusion h
          | some st1 =>
            simp only [h1] at h
            obtain ⟨ws1, hst1, hraws1, hrunt1⟩ := ih (.mod i emptyRaw) st st1 h1 t ht
            have hFE1 : FrameEq st1 (applyTrace t ws1) := by
              rw [hst1]
              exact frameEq_applyTrace_congr ws1 ht
            obtain ⟨ws2, hst2, hraws2, hrunt2⟩ :=
              ih (.errs rest) st1 st' h (applyTrace t ws1) hFE1
            refine ⟨ws1 ++ ws2, ?_, ?_, ?_⟩
            · rw [applyTrace_append, ← hst1]
              exact hst2
            · intro w hw
              rcases List.mem_append.mp hw with hw | hw
              · have := hraws1 w hw
                simpa [Task.raws] using this
              · have := hraws2 w hw
                simpa [Task.raws] using this
            · simp only [run, hrunt1]
              rw [applyTrace_append]
              exact hrunt2
    | smods es =>
      cases es with
      | nil =>
        simp only [run] at h
        injection h with h
        subst h
        exact ⟨[], rfl, by simp, by simp [run, applyTrace]⟩
      | cons e rest =>
        cases hid : e.id with
        | none => simp [run, hid] at h
        | some i =>
          simp only [run, hid] at h
          cases h1 : run fuel (.mod i e) st with
          | none => rw [h1] at h; exact Option.noConfusion h
          | some st1 =>
            simp only [h1] at h
            obtain ⟨ws1, hst1, hraws1, hrunt1⟩ := ih (.mod i e) st st1 h1 t ht
            have hFE1 : FrameEq st1 (applyTrace t ws1) := by
              rw [hst1]
              exact frameEq_applyTrace_congr ws1 ht
            obtain ⟨ws2, hst2, hraws2, hrunt2⟩ :=
              ih (.smods rest) st1 st' h (applyTrace t ws1) hFE1
            refine ⟨ws1 ++ ws2, ?_, ?_, ?_⟩
            · rw [applyTrace_append, ← hst1]
              exact hst2
            · intro w hw
              rcases List.mem_append.mp hw with hw | hw
              · have := hraws1 w hw
                simp only [Task.raws, List.mem_singleton] at this
                subst this
                exact List.mem_cons_self _ _
              · have := hraws2 w hw
                simp only [Task.raws] at this ⊢
                exact List.mem_cons_of_mem _ this
            · simp only [run, hid, hrunt1]
              rw [applyTrace_append]
              exact hrunt2
    | srooms es =>
      cases es with
      | nil =>
        simp only [run] at h
        injection h with h
        subst h
        exact ⟨[], rfl, by simp, by simp [run, applyTrace]⟩
      | cons e rest =>
        cases hid : e.id with
        | none => simp [run, hid] at h
        | some i =>
          simp only [run, hid] at h
          cases hr1 : dictGet i st.rooms with
          | none => rw [hr1] at h; exact Option.noConfusion h
          | some r =>
            simp only [hr1] at h
            have hW : applyW st (.wroom i e)
                = { st with rooms := dictInsert i (r.applyRaw e) st.rooms } := by
              simp only [applyW, hr1]
            obtain ⟨rt, hrt, hfrr⟩ := frameEq_get_room ht hr1
            have happr : rt.applyRaw e = r.applyRaw e := roomApplyRaw_congr e hfrr
            have hWt : applyW t (.wroom i e)
                = { t with rooms := dictInsert i (r.applyRaw e) t.rooms } := by
              simp only [applyW, hrt, happr]
            have hFE1 : FrameEq { st with rooms := dictInsert i (r.applyRaw e) st.rooms }
                (applyW t (.wroom i e)) := by
              rw [← hW]
              exact frameEq_applyW_congr _ ht
            obtain ⟨ws2, hst2, hraws2, hrunt2⟩ := ih (.srooms rest) _ st' h _ hFE1
            refine ⟨.wroom i e :: ws2, ?_, ?_, ?_⟩
            · rw [applyTrace_cons, hW]
              exact hst2
            · intro w hw
              rcases List.mem_cons.mp hw with hw | hw
              · subst hw
                simp [Wr.raw, Task.raws]
              · have := hraws2 w hw
                simp only [Task.raws] at this ⊢
                exact List.mem_cons_of_mem _ this
            · simp only [run, hid, hrt, happr]
              rw [applyTrace_cons, hWt]
              rw [hWt] at hrunt2
              exact hrunt2
    | homeUpd p =>
      simp only [run] at h
      cases h1 : run fuel (.errs p.errors) st with
      | none => rw [h1] at h; exact Option.noConfusion h
      | some st1 =>
        simp only [h1] at h
        cases h2 : run fuel (.smods p.home.modules) st1 with
        | none => rw [h2] at h; exact Option.noConfusion h
        | some st2 =>
          simp only [h2] at h
          obtain ⟨ws1, hst1, hraws1, hrunt1⟩ := ih (.errs p.errors) st st1 h1 t ht
          have hFE1 : FrameEq st1 (applyTrace t ws1) := by
            rw [hst1]
            exact frameEq_applyTrace_congr ws1 ht
          obtain ⟨ws2, hst2, hraws2, hrunt2⟩ :=
            ih (.smods p.home.modules) st1 st2 h2 (applyTrace t ws1) hFE1
          have hFE2 : FrameEq st2 (applyTrace (applyTrace t ws1) ws2) := by
            rw [hst2]
            exact frameEq_applyTrace_congr ws2 hFE1
          obtain ⟨ws3, hst3, hraws3, hrunt3⟩ :=
            ih (.srooms p.home.rooms) st2 st' h _ hFE2
          refine ⟨ws1 ++ ws2 ++ ws3, ?_, ?_, ?_⟩
          · rw [applyTrace_append, applyTrace_append, ← hst1, ← hst2]
            exact hst3
          · intro w hw
            simp only [Task.raws, List.mem_cons, List.mem_append]
            rcases List.mem_append.mp hw with hw | hw
            · rcases List.mem_append.mp hw with hw | hw
              · have := hraws1 w hw
                simp only [Task.raws, List.mem_singleton] at this
                exact Or.inl this
              · have := hraws2 w hw
                simp only [Task.raws] at this
                exact Or.inr (Or.inl this)
            · have := hraws3 w hw
              simp only [Task.raws] at this
              exact Or.inr (Or.inr this)
          · simp only [run, hrunt1, hrunt2, hrunt3]
            rw [applyTrace_append, applyTrace_append]

/-! ### Pointwise effect of a trace

The final value of a map entry under a trace is its original value with
the raw dict of the *last* write to that key applied (applying the same
kind of overwrite twice collapses, because an overwrite reads only the
frame of the previous value). -/

/-- The raw dict of the last module write to key `k` in the trace. -/
def lastModRaw (k : String) (ws : List Wr) : Option StatusRaw :=
  ws.foldl
    (fun acc w =>
      match w with
      | .wmod k' d => if k' = k then some d else acc
      | .wroom _ _ => acc) none

/-- The raw dict of the last room write to key `k` in the trace. -/
def lastRoomRaw (k : String) (ws : List Wr) : Option StatusRaw :=
  ws.foldl
    (fun acc w =>
      match w with
      | .wroom k' d => if k' = k then some d else acc
      | .wmod _ _ => acc) none

theorem lastModRaw_mem {k : String} : ∀ {ws : List Wr} {d : StatusRaw},
    lastModRaw k ws = some d → Wr.wmod k d ∈ ws := by
  intro ws
  induction ws using List.reverseRecOn with
  | nil => intro d h; simp [lastModRaw] at h
  | append_singleton ws w ih =>
    intro d h
    rw [lastModRaw, List.foldl_append] at h
    cases w with
    | wmod k' d' =>
      by_cases hk : k' = k
      · subst hk
        simp only [List.foldl_cons, List.foldl_nil, if_pos rfl] at h
        injection h with h
        subst h
        simp
      · simp only [List.foldl_cons, List.foldl_nil, if_neg hk] at h
        have := ih h
        simp [this]
    | wroom k' d' =>
      simp only [List.foldl_cons, List.foldl_nil] at h
      have := ih h
      simp [this]

theorem lastRoomRaw_mem {k : String} : ∀ {ws : List Wr} {d : StatusRaw},
    lastRoomRaw k ws = some d → Wr.wroom k d ∈ ws := by
  intro ws
  induction ws using List.reverseRecOn with
  | nil => intro d h; simp [lastRoomRaw] at h
  | append_singleton ws w ih =>
    intro d h
    rw [lastRoomRaw, List.foldl_append] at h
    cases w with
    | wroom k' d' =>
      by_cases hk : k' = k
      · subst hk
        simp only [List.foldl_cons, List.foldl_nil, if_pos rfl] at h
        injection h with h
        subst h
        simp
      · simp only [List.foldl_cons, List.foldl_nil, if_neg hk] at h
        have := ih h
        simp [this]
    | wmod k' d' =>
      simp only [List.foldl_cons, List.foldl_nil] at h
      have := ih h
      simp [this]

theorem applyW_eid (st : NetatmoHome) (w : Wr) : (applyW st w).entity_id = st.entity_id :=
  ((frameEq_applyW_self st w).eid)

theorem applyTrace_eid (st : NetatmoHome) (ws : List Wr) :
    (applyTrace st ws).entity_id = st.entity_id :=
  ((frameEq_applyTrace_self st ws).eid)

theorem applyTrace_name (st : NetatmoHome) (ws : List Wr) :
    (applyTrace st ws).name = st.name :=
  ((frameEq_applyTrace_self st ws).hname)

theorem applyTrace_schedules (st : NetatmoHome) (ws : List Wr) :
    (applyTrace st ws).schedules = st.schedules :=
  ((frameEq_applyTrace_self st ws).scheds)

theorem applyTrace_mkeys (st : NetatmoHome) (ws : List Wr) :
    (applyTrace st ws).modules.map Prod.fst = st.modules.map Prod.fst :=
  ((frameEq_applyTrace_self st ws).mkeys)

theorem applyTrace_rkeys (st : NetatmoHome) (ws : List Wr) :
    (applyTrace st ws).rooms.map Prod.fst = st.rooms.map Prod.fst :=
  ((frameEq_applyTrace_self st ws).rkeys)

/-- The value of a map entry after an optional last overwrite. -/
def overwriteWith {β : Type} (f : β → StatusRaw → β) (orig : Option β) :
    Option StatusRaw → Option β
  | none => orig
  | some d => orig.map (fun v => f v d)

theorem overwriteWith_none {β : Type} (f : β → StatusRaw → β) (orig : Option β) :
    overwriteWith f orig none = orig := rfl

theorem overwriteWith_some {β : Type} (f : β → StatusRaw → β) (orig : Option β)
    (d : StatusRaw) : overwriteWith f orig (some d) = orig.map (fun v => f v d) := rfl

theorem applyTrace_get_mod (k : String) : ∀ (ws : List Wr) (st : NetatmoHome),
    dictGet k (applyTrace st ws).modules
      = overwriteWith NetatmoModule.applyRaw (dictGet k st.modules) (lastModRaw k ws) := by
  intro ws
  induction ws using List.reverseRecOn with
  | nil => intro st; simp [applyTrace, lastModRaw, overwriteWith]
  | append_singleton ws w ih =>
    intro st
    rw [applyTrace, List.foldl_append, List.foldl_cons, List.foldl_nil]
    rw [show List.foldl applyW st ws = applyTrace st ws from rfl]
    cases w with
    | wroom k' d' =>
      have hrec : (applyW (applyTrace st ws) (.wroom k' d')).modules
          = (applyTrace st ws).modules := by
        rw [applyW]
        cases dictGet k' (applyTrace st ws).rooms <;> rfl
      have hlast : lastModRaw k (ws ++ [Wr.wroom k' d']) = lastModRaw k ws := by
        rw [lastModRaw, List.foldl_append, List.foldl_cons, List.foldl_nil]
        rfl
      rw [hrec, hlast]
      exact ih st
    | wmod k' d' =>
      have hlast : lastModRaw k (ws ++ [Wr.wmod k' d'])
          = if k' = k then some d' else lastModRaw k ws := by
        rw [lastModRaw, List.foldl_append, List.foldl_cons, List.foldl_nil]
        rfl
      rw [hlast]
      cases hv : dictGet k' (applyTrace st ws).modules with
      | none =>
        have hrec : applyW (applyTrace st ws) (.wmod k' d') = applyTrace st ws := by
          rw [applyW, hv]
        rw [hrec]
        by_cases hk : k' = k
        · subst hk
          rw [if_pos rfl, overwriteWith_some, hv]
          have h0 := ih st
          rw [hv] at h0
          cases hd : lastModRaw k' ws with
          | none =>
            rw [hd, overwriteWith_none] at h0
            rw [← h0]
            rfl
          | some d0 =>
            rw [hd, overwriteWith_some] at h0
            cases hs : dictGet k' st.modules with
            | none => rfl
            | some v0 => rw [hs] at h0; simp at h0
        · rw [if_neg hk]
          exact ih st
      | some v =>
        have hrec : applyW (applyTrace st ws) (.wmod k' d')
            = { applyTrace st ws with
                modules := dictInsert k' (v.applyRaw d') (applyTrace st ws).modules } := by
          rw [applyW, hv]
        rw [hrec]
        by_cases hk : k' = k
        · subst hk
          rw [if_pos rfl, overwriteWith_some]
          show dictGet k' (dictInsert k' (v.applyRaw d') (applyTrace st ws).modules) = _
          rw [dictGet_dictInsert_self]
          have h0 := ih st
          rw [hv] at h0
          cases hd : lastModRaw k' ws with
          | none =>
            rw [hd, overwriteWith_none] at h0
            rw [← h0]
            rfl
          | some d0 =>
            rw [hd, overwriteWith_some] at h0
            cases hs : dictGet k' st.modules with
            | none => rw [hs] at h0; simp at h0
            | some v0 =>
              rw [hs] at h0
              simp only [Option.map_some'] at h0
              injection h0 with h0
              simp only [Option.map_some']
              rw [h0, NetatmoModule.applyRaw_applyRaw]
        · rw [if_neg hk]
          show dictGet k (dictInsert k' (v.applyRaw d') (applyTrace st ws).modules) = _
          rw [dictGet_dictInsert_ne _ _ (fun he => hk he.symm)]
          exact ih st

theorem applyTrace_get_room (k : String) : ∀ (ws : List Wr) (st : NetatmoHome),
    dictGet k (applyTrace st ws).rooms
      = overwriteWith NetatmoRoom.applyRaw (dictGet k st.rooms) (lastRoomRaw k ws) := by
  intro ws
  induction ws using List.reverseRecOn with
  | nil => intro st; simp [applyTrace, lastRoomRaw, overwriteWith]
  | append_singleton ws w ih =>
    intro st
    rw [applyTrace, List.foldl_append, List.foldl_cons, List.foldl_nil]
    rw [show List.foldl applyW st ws = applyTrace st ws from rfl]
    cases w with
    | wmod k' d' =>
      have hrec : (applyW (applyTrace st ws) (.wmod k' d')).rooms
          = (applyTrace st ws).rooms := by
        rw [applyW]
        cases dictGet k' (applyTrace st ws).modules <;> rfl
      have hlast : lastRoomRaw k (ws ++ [Wr.wmod k' d']) = lastRoomRaw k ws := by
        rw [lastRoomRaw, List.foldl_append, List.foldl_cons, List.foldl_nil]
        rfl
      rw [hrec, hlast]
      exact ih st
    | wroom k' d' =>
      have hlast : lastRoomRaw k (ws ++ [Wr.wroom k' d'])
          = if k' = k then some d' else lastRoomRaw k ws := by
        rw [lastRoomRaw, List.foldl_append, List.foldl_cons, List.foldl_nil]
        rfl
      rw [hlast]
      cases hv : dictGet k' (applyTrace st ws).rooms with
      | none =>
        have hrec : applyW (applyTrace st ws) (.wroom k' d') = applyTrace st ws := by
          rw [applyW, hv]
        rw [hrec]
        by_cases hk : k' = k
        · subst hk
          rw [if_pos rfl, overwriteWith_some, hv]
          have h0 := ih st
          rw [hv] at h0
          cases hd : lastRoomRaw k' ws with
          | none =>
            rw [hd, overwriteWith_none] at h0
            rw [← h0]
            rfl
          | some d0 =>
            rw [hd, overwriteWith_some] at h0
            cases hs : dictGet k' st.rooms with
            | none => rfl
            | some v0 => rw [hs] at h0; simp at h0
        · rw [if_neg hk]
          exact ih st
      | some v =>
        have hrec : applyW (applyTrace st ws) (.wroom k' d')
            = { applyTrace st ws with
                rooms := dictInsert k' (v.applyRaw d') (applyTrace st ws).rooms } := by
          rw [applyW, hv]
        rw [hrec]
        by_cases hk : k' = k
        · subst hk
          rw [if_pos rfl, overwriteWith_some]
          show dictGet k' (dictInsert k' (v.applyRaw d') (applyTrace st ws).rooms) = _
          rw [dictGet_dictInsert_self]
          have h0 := ih st
          rw [hv] at h0
          cases hd : lastRoomRaw k' ws with
          | none =>
            rw [hd, overwriteWith_none] at h0
            rw [← h0]
            rfl
          | some d0 =>
            rw [hd, overwriteWith_some] at h0
            cases hs : dictGet k' st.rooms with
            | none => rw [hs] at h0; simp at h0
            | some v0 =>
              rw [hs] at h0
              simp only [Option.map_some'] at h0
              injection h0 with h0
              simp only [Option.map_some']
              rw [h0, roomApplyRaw_applyRaw]
        · rw [if_neg hk]
          show dictGet k (dictInsert k' (v.applyRaw d') (applyTrace st ws).rooms) = _
          rw [dictGet_dictInsert_ne _ _ (fun he => hk he.symm)]
          exact ih st

/-- Structure equality of home states from component equality. -/
theorem NetatmoHome.eq_of_parts {a b : NetatmoHome} (h1 : a.entity_id = b.entity_id)
    (h2 : a.name = b.name) (h3 : a.rooms = b.rooms) (h4 : a.modules = b.modules)
    (h5 : a.schedules = b.schedules) : a = b := by
  cases a; cases b
  simp_all

/-- Replaying a trace a second time is a no-op (on states with
duplicate-free maps, which is every state modelling Python dicts). -/
theorem applyTrace_idem (st : NetatmoHome) (ws : List Wr)
    (hm : (st.modules.map Prod.fst).Nodup) (hr : (st.rooms.map Prod.fst).Nodup) :
    applyTrace (applyTrace st ws) ws = applyTrace st ws := by
  refine NetatmoHome.eq_of_parts ?_ ?_ ?_ ?_ ?_
  · rw [applyTrace_eid, applyTrace_eid]
  · rw [applyTrace_name, applyTrace_name]
  · refine dict_ext ?_ ?_ ?_
    · rw [applyTrace_rkeys, applyTrace_rkeys]
    · rw [applyTrace_rkeys, applyTrace_rkeys]
      exact hr
    · intro k
      rw [applyTrace_get_room k ws (applyTrace st ws)]
      cases hd : lastRoomRaw k ws with
      | none => rw [overwriteWith_none]
      | some d =>
        rw [overwriteWith_some, applyTrace_get_room k ws st, hd, overwriteWith_some]
        cases hs : dictGet k st.rooms with
        | none => rfl
        | some v =>
          simp only [Option.map_some']
          rw [roomApplyRaw_applyRaw]
  · refine dict_ext ?_ ?_ ?_
    · rw [applyTrace_mkeys, applyTrace_mkeys]
    · rw [applyTrace_mkeys, applyTrace_mkeys]
      exact hm
    · intro k
      rw [applyTrace_get_mod k ws (applyTrace st ws)]
      cases hd : lastModRaw k ws with
      | none => rw [overwriteWith_none]
      | some d =>
        rw [overwriteWith_some, applyTrace_get_mod k ws st, hd, overwriteWith_some]
        cases hs : dictGet k st.modules with
        | none => rfl
        | some v =>
          simp only [Option.map_some']
          rw [NetatmoModule.applyRaw_applyRaw]
  · rw [applyTrace_schedules, applyTrace_schedules]

/-- Idempotence of any successful reconciliation step: running the same
task again from the reached state succeeds and changes nothing. -/
theorem run_idem {fuel : Nat} {task : Task} {st st' : NetatmoHome}
    (hm : (st.modules.map Prod.fst).Nodup) (hr : (st.rooms.map Prod.fst).Nodup)
    (h : run fuel task st = some st') : run fuel task st' = some st' := by
  obtain ⟨ws, hdec, -, -⟩ := run_sim fuel task st st' h st (FrameEq.refl st)
  have hFE : FrameEq st st' := by
    rw [hdec]
    exact frameEq_applyTrace_self st ws
  obtain ⟨ws', hdec', -, hrunt⟩ := run_sim fuel task st st' h st' hFE
  rw [hdec'] at hrunt ⊢
  rw [applyTrace_idem st ws' hm hr] at hrunt
  exact hrunt

theorem NetatmoModule.applyRaw_room_id (m : NetatmoModule) (d : StatusRaw) :
    (m.applyRaw d).room_id = m.room_id := rfl

theorem NetatmoModule.applyRaw_modules (m : NetatmoModule) (d : StatusRaw) :
    (m.applyRaw d).modules = m.modules := rfl

/-- Pointwise maintains property for modules: a run leaves an entry alone
or overwrites it with one of the task's raw dicts. -/
theorem run_get_mod {fuel : Nat} {task : Task} {st st' : NetatmoHome}
    (h : run fuel task st = some st') (k : String) :
    dictGet k st'.modules = dictGet k st.modules ∨
    ∃ d ∈ task.raws, dictGet k st'.modules
      = (dictGet k st.modules).map (fun v => v.applyRaw d) := by
  obtain ⟨ws, hdec, hraws, -⟩ := run_sim fuel task st st' h st (FrameEq.refl st)
  rw [hdec, applyTrace_get_mod]
  cases hd : lastModRaw k ws with
  | none => exact Or.inl (overwriteWith_none _ _)
  | some d =>
    refine Or.inr ⟨d, hraws _ (lastModRaw_mem hd), overwriteWith_some _ _ _⟩

/-- Pointwise maintains property for rooms. -/
theorem run_get_room {fuel : Nat} {task : Task} {st st' : NetatmoHome}
    (h : run fuel task st = some st') (k : String) :
    dictGet k st'.rooms = dictGet k st.rooms ∨
    ∃ d ∈ task.raws, dictGet k st'.rooms
      = (dictGet k st.rooms).map (fun v => v.applyRaw d) := by
  obtain ⟨ws, hdec, hraws, -⟩ := run_sim fuel task st st' h st (FrameEq.refl st)
  rw [hdec, applyTrace_get_room]
  cases hd : lastRoomRaw k ws with
  | none => exact Or.inl (overwriteWith_none _ _)
  | some d =>
    refine Or.inr ⟨d, hraws _ (lastRoomRaw_mem hd), overwriteWith_some _ _ _⟩

theorem run_back_mod {fuel : Nat} {task : Task} {st st' : NetatmoHome} {d : StatusRaw}
    (h : run fuel task st = some st') (hraws : task.raws = [d]) {k : String}
    {b' : NetatmoModule} (hb : dictGet k st'.modules = some b') :
    ∃ b, dictGet k st.modules = some b ∧ (b' = b ∨ b' = b.applyRaw d) := by
  rcases run_get_mod h k with heq | ⟨d', hd', heq⟩
  · rw [hb] at heq
    exact ⟨b', heq.symm, Or.inl rfl⟩
  · rw [hraws, List.mem_singleton] at hd'
    subst hd'
    rw [hb] at heq
    cases hs : dictGet k st.modules with
    | none => rw [hs] at heq; simp at heq
    | some b =>
      rw [hs] at heq
      simp only [Option.map_some'] at heq
      injection heq with heq
      exact ⟨b, rfl, Or.inr heq⟩

theorem run_back_room {fuel : Nat} {task : Task} {st st' : NetatmoHome} {d : StatusRaw}
    (h : run fuel task st = some st') (hraws : task.raws = [d]) {k : String}
    {r' : NetatmoRoom} (hr : dictGet k st'.rooms = some r') :
    ∃ r, dictGet k st.rooms = some r ∧ (r' = r ∨ r' = r.applyRaw d) := by
  rcases run_get_room h k with heq | ⟨d', hd', heq⟩
  · rw [hr] at heq
    exact ⟨r', heq.symm, Or.inl rfl⟩
  · rw [hraws, List.mem_singleton] at hd'
    subst hd'
    rw [hr] at heq
    cases hs : dictGet k st.rooms with
    | none => rw [hs] at heq; simp at heq
    | some r =>
      rw [hs] at heq
      simp only [Option.map_some'] at heq
      injection heq with heq
      exact ⟨r, rfl, Or.inr heq⟩

theorem applyRaw_collapse_mod {b b' : NetatmoModule} {d : StatusRaw}
    (h : b' = b ∨ b' = b.applyRaw d) : b'.applyRaw d = b.applyRaw d := by
  rcases h with h | h
  · rw [h]
  · rw [h, NetatmoModule.applyRaw_applyRaw]

theorem applyRaw_collapse_room {r r' : NetatmoRoom} {d : StatusRaw}
    (h : r' = r ∨ r' = r.applyRaw d) : r'.applyRaw d = r.applyRaw d := by
  rcases h with h | h
  · rw [h]
  · rw [h, roomApplyRaw_applyRaw]

theorem room_id_collapse {b b' : NetatmoModule} {d : StatusRaw}
    (h : b' = b ∨ b' = b.applyRaw d) : b'.room_id = b.room_id := by
  rcases h with h | h
  · rw [h]
  · rw [h, NetatmoModule.applyRaw_room_id]

theorem stay_applied_mod {fuel : Nat} {task : Task} {st st' : NetatmoHome} {d : StatusRaw}
    (h : run fuel task st = some st') (hraws : task.raws = [d]) {k : String}
    {m : NetatmoModule} (hk : dictGet k st.modules = some (m.applyRaw d)) :
    dictGet k st'.modules = some (m.applyRaw d) := by
  rcases run_get_mod h k with heq | ⟨d', hd', heq⟩
  · rw [heq, hk]
  · rw [hraws, List.mem_singleton] at hd'
    subst hd'
    rw [heq, hk]
    simp only [Option.map_some']
    rw [NetatmoModule.applyRaw_applyRaw]

theorem stay_applied_room {fuel : Nat} {task : Task} {st st' : NetatmoHome} {d : StatusRaw}
    (h : run fuel task st = some st') (hraws : task.raws = [d]) {k : String}
    {r : NetatmoRoom} (hk : dictGet k st.rooms = some (r.applyRaw d)) :
    dictGet k st'.rooms = some (r.applyRaw d) := by
  rcases run_get_room h k with heq | ⟨d', hd', heq⟩
  · rw [heq, hk]
  · rw [hraws, List.mem_singleton] at hd'
    subst hd'
    rw [heq, hk]
    simp only [Option.map_some']
    rw [roomApplyRaw_applyRaw]

/-- A successful `NetatmoModule.update` call overwrites the updated
module itself with the raw dict. -/
theorem mod_writes {fuel : Nat} {st st' : NetatmoHome} {mid : String} {d : StatusRaw}
    (h : run fuel (.mod mid d) st = some st') :
    ∃ m, dictGet mid st.modules = some m ∧
      dictGet mid st'.modules = some (m.applyRaw d) := by
  cases fuel with
  | zero => simp [run] at h
  | succ fuel =>
    simp only [run] at h
    cases hm : dictGet mid st.modules with
    | none => rw [hm] at h; exact Option.noConfusion h
    | some m =>
      simp only [hm] at h
      refine ⟨m, rfl, ?_⟩
      split at h
      next hreach =>
        injection h with h
        rw [← h]
        show dictGet mid (dictInsert mid (m.applyRaw d) st.modules) = _
        rw [dictGet_dictInsert_self]
      next hreach =>
        have hk : dictGet mid
            ({ st with modules := dictInsert mid (m.applyRaw d) st.modules }
              : NetatmoHome).modules = some (m.applyRaw d) := by
          show dictGet mid (dictInsert mid (m.applyRaw d) st.modules) = _
          rw [dictGet_dictInsert_self]
        exact stay_applied_mod h rfl hk

/-- Transfer the cascade conclusion across one already-performed
single-raw step. -/
theorem casc_transfer {d : StatusRaw} {st0 st2 st' : NetatmoHome} {bid : String}
    (hconc2 : ∃ b, dictGet bid st2.modules = some b ∧
      dictGet bid st'.modules = some (b.applyRaw d) ∧
      ∀ rid, truthy b.room_id = some rid →
        ∃ r, dictGet rid st2.rooms = some r ∧
          dictGet rid st'.rooms = some (r.applyRaw d))
    (hbm : ∀ k b', dictGet k st2.modules = some b' →
      ∃ b, dictGet k st0.modules = some b ∧ (b' = b ∨ b' = b.applyRaw d))
    (hbr : ∀ k r', dictGet k st2.rooms = some r' →
      ∃ r, dictGet k st0.rooms = some r ∧ (r' = r ∨ r' = r.applyRaw d)) :
    ∃ b, dictGet bid st0.modules = some b ∧
      dictGet bid st'.modules = some (b.applyRaw d) ∧
      ∀ rid, truthy b.room_id = some rid →
        ∃ r, dictGet rid st0.rooms = some r ∧
          dictGet rid st'.rooms = some (r.applyRaw d) := by
  obtain ⟨b₂, hb₂, hw, hroom⟩ := hconc2
  obtain ⟨b0, hb0, hrel⟩ := hbm _ _ hb₂
  refine ⟨b0, hb0, ?_, ?_⟩
  · rw [hw, applyRaw_collapse_mod hrel]
  · intro rid hrid
    have hrid2 : truthy b₂.room_id = some rid := by
      rw [room_id_collapse hrel]
      exact hrid
    obtain ⟨r₂, hr₂, hw'⟩ := hroom rid hrid2
    obtain ⟨r0, hr0, hrel'⟩ := hbr _ _ hr₂
    exact ⟨r0, hr0, by rw [hw', applyRaw_collapse_room hrel']⟩

/-- The cascade loop applies the raw dict to every listed module, and to
the room of each listed module that has a truthy `room_id`. -/
theorem casc_applies : ∀ (fuel : Nat) (ids : List String) (d : StatusRaw)
    (st0 st' : NetatmoHome), run fuel (.casc ids d) st0 = some st' →
    ∀ bid ∈ ids, ∃ b, dictGet bid st0.modules = some b ∧
      dictGet bid st'.modules = some (b.applyRaw d) ∧
      ∀ rid, truthy b.room_id = some rid →
        ∃ r, dictGet rid st0.rooms = some r ∧
          dictGet rid st'.rooms = some (r.applyRaw d) := by
  intro fuel
  induction fuel with
  | zero => intro ids d st0 st' h; simp [run] at h
  | succ fuel ih =>
    intro ids d st0 st' h bid hbid
    cases ids with
    | nil => simp at hbid
    | cons mid rest =>
      simp only [run] at h
      cases hm : dictGet mid st0.modules with
      | none => rw [hm] at h; exact Option.noConfusion h
      | some m =>
        simp only [hm] at h
        cases h1 : run fuel (.mod mid d) st0 with
        | none => rw [h1] at h; exact Option.noConfusion h
        | some st1 =>
          simp only [h1] at h
          obtain ⟨m₀, hm₀, hw1⟩ := mod_writes h1
          rw [hm] at hm₀
          injection hm₀ with hm₀
          subst hm₀
          cases hro : truthy m.room_id with
          | none =>
            simp only [hro] at h
            have hbm : ∀ k b', dictGet k st1.modules = some b' →
                ∃ b, dictGet k st0.modules = some b ∧ (b' = b ∨ b' = b.applyRaw d) :=
              fun k b' hb => run_back_mod h1 rfl hb
            have hbr : ∀ k r', dictGet k st1.rooms = some r' →
                ∃ r, dictGet k st0.rooms = some r ∧ (r' = r ∨ r' = r.applyRaw d) :=
              fun k r' hr => run_back_room h1 rfl hr
            rcases List.mem_cons.mp hbid with hbid | hbid
            · subst hbid
              refine ⟨m, hm, stay_applied_mod h rfl hw1, ?_⟩
              intro rid hrid
              rw [hro] at hrid
              exact Option.noConfusion hrid
            · exact casc_transfer (ih rest d st1 st' h bid hbid) hbm hbr
          | some rid0 =>
            simp only [hro] at h
            cases hr1 : dictGet rid0 st1.rooms with
            | none => rw [hr1] at h; exact Option.noConfusion h
            | some r =>
              simp only [hr1] at h
              obtain ⟨r0, hr0, hrelr⟩ := run_back_room h1 rfl hr1
              have hst2m : ∀ k, dictGet k
                  ({ st1 with rooms := dictInsert rid0 (r.applyRaw d) st1.rooms }
                    : NetatmoHome).modules = dictGet k st1.modules := fun k => rfl
              have hst2r : ∀ k, dictGet k
                  ({ st1 with rooms := dictInsert rid0 (r.applyRaw d) st1.rooms }
                    : NetatmoHome).rooms
                  = dictGet k (dictInsert rid0 (r.applyRaw d) st1.rooms) := fun k => rfl
              have hbm : ∀ k b', dictGet k
                  ({ st1 with rooms := dictInsert rid0 (r.applyRaw d) st1.rooms }
                    : NetatmoHome).modules = some b' →
                  ∃ b, dictGet k st0.modules = some b ∧ (b' = b ∨ b' = b.applyRaw d) := by
                intro k b' hb
                rw [hst2m] at hb
                exact run_back_mod h1 rfl hb
              have hbr : ∀ k r', dictGet k
                  ({ st1 with rooms := dictInsert rid0 (r.applyRaw d) st1.rooms }
                    : NetatmoHome).rooms = some r' →
                  ∃ rr, dictGet k st0.rooms = some rr ∧ (r' = rr ∨ r' = rr.applyRaw d) := by
                intro k r' hr
                rw [hst2r] at hr
                by_cases hk : k = rid0
                · subst hk
                  rw [dictGet_dictInsert_self] at hr
                  injection hr with hr
                  subst hr
                  exact ⟨r0, hr0, Or.inr (applyRaw_collapse_room hrelr)⟩
                · rw [dictGet_dictInsert_ne _ _ hk] at hr
                  exact run_back_room h1 rfl hr
              rcases List.mem_cons.mp hbid with hbid | hbid
              · subst hbid
                have hw2 : dictGet bid
                    ({ st1 with rooms := dictInsert rid0 (r.applyRaw d) st1.rooms }
                      : NetatmoHome).modules = some (m.applyRaw d) := by
                  rw [hst2m]
                  exact hw1
                refine ⟨m, hm, stay_applied_mod h rfl hw2, ?_⟩
                intro rid hrid
                rw [hro] at hrid
                injection hrid with hrid
                subst hrid
                have hk2 : dictGet rid0
                    ({ st1 with rooms := dictInsert rid0 (r.applyRaw d) st1.rooms }
                      : NetatmoHome).rooms = some (r0.applyRaw d) := by
                  rw [hst2r, dictGet_dictInsert_self, applyRaw_collapse_room hrelr]
                exact ⟨r0, hr0, stay_applied_room h rfl hk2⟩
              · exact casc_transfer (ih rest d _ st' h bid hbid) hbm hbr

/-! ### The claims -/

/-- C1: for every registered home and every status payload, after applying
a module update from that payload, if the module's `reachable` field is
false, then the same raw update payload is applied to every module whose
id appears in that module's bridged-module-ids list, and, for each such
bridged module with a (truthy) `room_id`, the same raw payload is also
applied to that room's status update routine: each such bridged module
ends with exactly the raw dict's fields applied, and so does each such
room. -/
theorem c1_cascade_propagates_raw (fuel : Nat) (st st' : NetatmoHome) (mid : String)
    (d : StatusRaw) (m : NetatmoModule)
    (h : NetatmoModule.update fuel st mid d = some st')
    (hm : dictGet mid st.modules = some m)
    (hreach : (m.applyRaw d).reachable = false) :
    ∀ bid ∈ m.modules, ∃ b, dictGet bid st.modules = some b ∧
      dictGet bid st'.modules = some (b.applyRaw d) ∧
      ∀ rid, truthy b.room_id = some rid →
        ∃ r, dictGet rid st.rooms = some r ∧
          dictGet rid st'.rooms = some (r.applyRaw d) := by
  cases fuel with
  | zero => simp [NetatmoModule.update, run] at h
  | succ fuel =>
    rw [NetatmoModule.update] at h
    simp only [run, hm] at h
    have hnr : ¬ ((m.applyRaw d).reachable = true) := by
      rw [hreach]; simp
    rw [if_neg hnr, NetatmoModule.applyRaw_modules] at h
    intro bid hbid
    refine casc_transfer (casc_applies fuel m.modules d _ st' h bid hbid) ?_ ?_
    · intro k b' hb
      by_cases hk : k = mid
      · subst hk
        have : dictGet k (dictInsert k (m.applyRaw d) st.modules) = some (m.applyRaw d) :=
          dictGet_dictInsert_self _ _ _
        rw [show dictGet k ({ st with modules := dictInsert k (m.applyRaw d) st.modules }
            : NetatmoHome).modules = dictGet k (dictInsert k (m.applyRaw d) st.modules)
            from rfl, this] at hb
        injection hb with hb
        subst hb
        exact ⟨m, hm, Or.inr rfl⟩
      · rw [show dictGet k ({ st with modules := dictInsert mid (m.applyRaw d) st.modules }
            : NetatmoHome).modules = dictGet k (dictInsert mid (m.applyRaw d) st.modules)
            from rfl, dictGet_dictInsert_ne _ _ hk] at hb
        exact ⟨b', hb, Or.inl rfl⟩
    · intro k r' hr
      exact ⟨r', hr, Or.inl rfl⟩

/-- The structural invariant of the two-module cyclic bridge graph: `A`
bridges `B` and `B` bridges `A`. -/
def cycInv (st : NetatmoHome) : Prop :=
  (∃ a, dictGet "A" st.modules = some a ∧ a.modules = ["B"]) ∧
  (∃ b, dictGet "B" st.modules = some b ∧ b.modules = ["A"])

theorem NetatmoModule.applyRaw_reachable (m : NetatmoModule) (d : StatusRaw) :
    (m.applyRaw d).reachable = d.reachable.getD false := rfl

/-- On the cyclic bridge graph, a module update whose raw dict does not
set `reachable` exhausts any fuel: the Python recursion never
terminates. -/
theorem cyc_none : ∀ (fuel : Nat) (d : StatusRaw) (st : NetatmoHome),
    d.reachable.getD false = false → cycInv st →
    run fuel (.mod "A" d) st = none ∧ run fuel (.mod "B" d) st = none ∧
    run fuel (.casc ["B"] d) st = none ∧ run fuel (.casc ["A"] d) st = none := by
  intro fuel
  induction fuel with
  | zero => intro d st hd hInv; exact ⟨rfl, rfl, rfl, rfl⟩
  | succ fuel ih =>
    intro d st hd hInv
    obtain ⟨⟨a, ha, ham⟩, ⟨b, hb, hbm⟩⟩ := hInv
    have hne : ("B" : String) ≠ "A" := by decide
    have hne' : ("A" : String) ≠ "B" := by decide
    have hnra : ¬ ((a.applyRaw d).reachable = true) := by
      rw [NetatmoModule.applyRaw_reachable, hd]; simp
    have hnrb : ¬ ((b.applyRaw d).reachable = true) := by
      rw [NetatmoModule.applyRaw_reachable, hd]; simp
    have hInvA : cycInv { st with modules := dictInsert "A" (a.applyRaw d) st.modules } := by
      refine ⟨⟨a.applyRaw d, ?_, ?_⟩, ⟨b, ?_, hbm⟩⟩
      · exact dictGet_dictInsert_self _ _ _
      · rw [NetatmoModule.applyRaw_modules, ham]
      · show dictGet "B" (dictInsert "A" (a.applyRaw d) st.modules) = some b
        rw [dictGet_dictInsert_ne _ _ hne]
        exact hb
    have hInvB : cycInv { st with modules := dictInsert "B" (b.applyRaw d) st.modules } := by
      refine ⟨⟨a, ?_, ham⟩, ⟨b.applyRaw d, ?_, ?_⟩⟩
      · show dictGet "A" (dictInsert "B" (b.applyRaw d) st.modules) = some a
        rw [dictGet_dictInsert_ne _ _ hne']
        exact ha
      · exact dictGet_dictInsert_self _ _ _
      · rw [NetatmoModule.applyRaw_modules, hbm]
    refine ⟨?_, ?_, ?_, ?_⟩
    · simp only [run, ha]
      rw [if_neg hnra, NetatmoModule.applyRaw_modules, ham]
      exact (ih d _ hd hInvA).2.2.1
    · simp only [run, hb]
      rw [if_neg hnrb, NetatmoModule.applyRaw_modules, hbm]
      exact (ih d _ hd hInvB).2.2.2
    · simp only [run, hb]
      rw [(ih d st hd ⟨⟨a, ha, ham⟩, ⟨b, hb, hbm⟩⟩).2.1]
    · simp only [run, ha]
      rw [(ih d st hd ⟨⟨a, ha, ham⟩, ⟨b, hb, hbm⟩⟩).1]

/-- The concrete cyclic topology: module `A` bridges `B` and module `B`
bridges `A` back. -/
def cycleTopology : RawHome :=
  { id := "h2"
    modules := [
      { id := "A", name := "relay", type := "NAPlug", modules_bridged := ["B"] },
      { id := "B", name := "valve", type := "NRV", bridge := some "A",
        modules_bridged := ["A"] }] }

def cycleHome : NetatmoHome := NetatmoHome.ofRaw cycleTopology

/-- A status payload for the cyclic home marking `A` unreachable (its
module entry has no `reachable` key, which defaults to false). -/
def cyclePayload : StatusPayload :=
  { home := { id := "h2", modules := [{ id := some "A" }] }, errors := [] }

/-- C2: the claim fails on the code.  On the cyclic bridge graph,
reconciliation of a payload marking `A` unreachable does not terminate:
the cascade recursion of `NetatmoModule.update` has no visited-set
guard, so no amount of fuel completes the update (Python raises
`RecursionError`), and entities are re-updated unboundedly rather than
at most once. -/
theorem c2_cyclic_cascade_diverges : ∀ fuel : Nat,
    NetatmoHome.update fuel cycleHome cyclePayload = none := by
  intro fuel
  cases fuel with
  | zero => rfl
  | succ fuel =>
    cases fuel with
    | zero => rfl
    | succ f =>
      have hInv : cycInv cycleHome := ⟨⟨_, rfl, rfl⟩, ⟨_, rfl, rfl⟩⟩
      have hmod := (cyc_none f { id := some "A" } cycleHome rfl hInv).1
      show run (f + 1 + 1) (.homeUpd cyclePayload) cycleHome = none
      simp only [run, cyclePayload, hmod]

/-- Processing the errors list resets every module named in it. -/
theorem errs_resets (X : String) : ∀ (es : List (Option String)) (fuel : Nat)
    (st st' : NetatmoHome), run fuel (.errs es) st = some st' → some X ∈ es →
    ∃ v, dictGet X st'.modules = some v ∧ v.reachable = false ∧
      v.battery_level = none ∧ v.battery_state = none ∧ v.boiler_status = none := by
  intro es
  induction es with
  | nil => intro fuel st st' h hX; simp at hX
  | cons e rest ih =>
    intro fuel st st' h hX
    cases fuel with
    | zero => simp [run] at h
    | succ fuel =>
      cases e with
      | none => simp [run] at h
      | some i =>
        simp only [run] at h
        cases h1 : run fuel (.mod i emptyRaw) st with
        | none => rw [h1] at h; exact Option.noConfusion h
        | some st1 =>
          simp only [h1] at h
          rcases List.mem_cons.mp hX with hX | hX
          · injection hX with hX
            subst hX
            obtain ⟨m, hm, hw⟩ := mod_writes h1
            exact ⟨m.applyRaw emptyRaw, stay_applied_mod h rfl hw, rfl, rfl, rfl, rfl⟩
          · exact ih fuel st1 st' h hX

/-- C4: for every registered module `X` and every status payload whose
errors list contains an entry with `X`'s id, processing the errors list
resets `X`'s `boiler_status`, `battery_level` and `battery_state` to
unset and `X`'s `reachable` to false, regardless of the values `X` held
before. -/
theorem c4_error_entry_resets (fuel : Nat) (p : StatusPayload) (st st' : NetatmoHome)
    (X : String) (h : run fuel (.errs p.errors) st = some st')
    (hX : some X ∈ p.errors) :
    ∃ v, dictGet X st'.modules = some v ∧ v.reachable = false ∧
      v.battery_level = none ∧ v.battery_state = none ∧ v.boiler_status = none :=
  errs_resets X p.errors fuel st st' h hX

/-! ### Topology builder lemmas -/

theorem foldl_dictInsert_eq_map {α β : Type} (key : α → String) (val : α → β) :
    ∀ (l : List α) (acc : List (String × β)), (l.map key).Nodup →
    (∀ x ∈ l, key x ∉ acc.map Prod.fst) →
    l.foldl (fun a x => dictInsert (key x) (val x) a) acc
      = acc ++ l.map (fun x => (key x, val x)) := by
  intro l
  induction l with
  | nil => intro acc _ _; simp
  | cons x l ih =>
    intro acc hnd hdis
    rw [List.map_cons] at hnd
    have hx : key x ∉ acc.map Prod.fst := hdis x (List.mem_cons_self _ _)
    rw [List.foldl_cons, dictInsert_not_mem _ hx]
    have hdis' : ∀ y ∈ l, key y ∉ (acc ++ [(key x, val x)]).map Prod.fst := by
      intro y hy hmem
      rw [List.map_append, List.mem_append] at hmem
      rcases hmem with hmem | hmem
      · exact hdis y (List.mem_cons_of_mem _ hy) hmem
      · simp at hmem
        exact (List.nodup_cons.mp hnd).1 (hmem ▸ List.mem_map_of_mem key hy)
    rw [ih (acc ++ [(key x, val x)]) (List.nodup_cons.mp hnd).2 hdis']
    simp

theorem mem_dictInsert {α : Type} {x : String × α} {k : String} {v : α}
    {l : List (String × α)} (h : x ∈ dictInsert k v l) : x = (k, v) ∨ x ∈ l := by
  induction l with
  | nil => simpa [dictInsert] using h
  | cons p l ih =>
    obtain ⟨k₀, v₀⟩ := p
    by_cases hk : k₀ = k
    · subst hk
      rw [dictInsert, if_pos rfl] at h
      rcases List.mem_cons.mp h with h | h
      · exact Or.inl h
      · exact Or.inr (List.mem_cons_of_mem _ h)
    · rw [dictInsert, if_neg hk] at h
      rcases List.mem_cons.mp h with h | h
      · exact Or.inr (h ▸ List.mem_cons_self _ _)
      · rcases ih h with h | h
        · exact Or.inl h
        · exact Or.inr (List.mem_cons_of_mem _ h)

theorem mem_foldl_dictInsert {α β : Type} (key : α → String) (val : α → β) :
    ∀ (l : List α) (acc : List (String × β)) (x : String × β),
    x ∈ l.foldl (fun a y => dictInsert (key y) (val y) a) acc →
    x ∈ acc ∨ ∃ y ∈ l, x = (key y, val y) := by
  intro l
  induction l with
  | nil => intro acc x h; exact Or.inl h
  | cons y l ih =>
    intro acc x h
    rw [List.foldl_cons] at h
    rcases ih _ x h with h | ⟨z, hz, hx⟩
    · rcases mem_dictInsert h with h | h
      · exact Or.inr ⟨y, List.mem_cons_self _ _, h⟩
      · exact Or.inl h
    · exact Or.inr ⟨z, List.mem_cons_of_mem _ hz, hx⟩

theorem dictGet_foldl_insert {α β : Type} (key : α → String) (val : α → β) :
    ∀ (l : List α) (acc : List (String × β)) (k : String) (v : β),
    dictGet k (l.foldl (fun a x => dictInsert (key x) (val x) a) acc) = some v →
    (∃ x ∈ l, v = val x) ∨ dictGet k acc = some v := by
  intro l
  induction l with
  | nil => intro acc k v h; exact Or.inr h
  | cons x l ih =>
    intro acc k v h
    rw [List.foldl_cons] at h
    rcases ih _ k v h with h | h
    · obtain ⟨z, hz, hv⟩ := h
      exact Or.inl ⟨z, List.mem_cons_of_mem _ hz, hv⟩
    · rw [dictGet_dictInsert] at h
      by_cases hk : k = key x
      · rw [if_pos hk] at h
        injection h with h
        exact Or.inl ⟨x, List.mem_cons_self _ _, h.symm⟩
      · rw [if_neg hk] at h
        exact Or.inr h

theorem dictGet_filter_pred {α : Type} (p : String → Bool) :
    ∀ {l : List (String × α)} {k : String} {v : α},
    dictGet k (l.filter (fun kv => p kv.1)) = some v → p k = true := by
  intro l
  induction l with
  | nil => intro k v h; simp [dictGet] at h
  | cons kv l ih =>
    intro k v h
    obtain ⟨k₀, v₀⟩ := kv
    cases hp : p k₀ with
    | true =>
      rw [List.filter_cons_of_pos (by simpa using hp)] at h
      by_cases hk : k₀ = k
      · subst hk
        exact hp
      · rw [dictGet, if_neg hk] at h
        exact ih h
    | false =>
      rw [List.filter_cons_of_neg (by simpa using hp)] at h
      exact ih h

theorem dictGet_filter_key {α : Type} (p : String → Bool) :
    ∀ {l : List (String × α)} {k : String} {v : α},
    dictGet k (l.filter (fun kv => p kv.1)) = some v → dictGet k l = some v := by
  intro l
  induction l with
  | nil => intro k v h; simp [dictGet] at h
  | cons kv l ih =>
    intro k v h
    obtain ⟨k₀, v₀⟩ := kv
    cases hp : p k₀ with
    | true =>
      rw [List.filter_cons_of_pos (by simpa using hp)] at h
      by_cases hk : k₀ = k
      · subst hk
        rw [dictGet, if_pos rfl] at h ⊢
        exact h
      · rw [dictGet, if_neg hk] at h ⊢
        exact ih h
    | false =>
      rw [List.filter_cons_of_neg (by simpa using hp)] at h
      have hp' := dictGet_filter_pred p h
      by_cases hk : k₀ = k
      · subst hk
        rw [hp'] at hp
        exact Bool.noConfusion hp
      · rw [dictGet, if_neg hk]
        exact ih h

/-- The concrete topology payload with two module descriptors sharing the
id `"a"`: the dict comprehension collapses them to one entry. -/
def c5DupTopology : RawHome :=
  { id := "h5"
    modules := [
      { id := "a", name := "m1", type := "NRV" },
      { id := "a", name := "m2", type := "NRV" }] }

/-- C5 counterexample: a topology payload with two module descriptors
(`N = 2`) whose ids collide builds a home with one `modules` entry, not
two — the dict comprehension overwrites the earlier descriptor. -/
theorem c5_duplicate_ids_counterexample :
    c5DupTopology.modules.length = 2 ∧
    ¬ (NetatmoHome.ofRaw c5DupTopology).modules.length = 2 := by
  refine ⟨rfl, ?_⟩
  decide

/-- C5 (amended with pairwise-distinct descriptor ids): building a home
from a topology payload whose `N` module descriptors have pairwise
distinct ids yields exactly `N` entries in `modules`, each with
`reachable` false and `battery_state`, `battery_level`, `boiler_status`
unset. -/
theorem c5_topology_builds_all_modules (d : RawHome)
    (hnd : (d.modules.map RawModule.id).Nodup) :
    (NetatmoHome.ofRaw d).modules.length = d.modules.length ∧
    ∀ kv ∈ (NetatmoHome.ofRaw d).modules, kv.2.reachable = false ∧
      kv.2.battery_state = none ∧ kv.2.battery_level = none ∧
      kv.2.boiler_status = none := by
  have h0 : ∀ x ∈ d.modules,
      (fun m : RawModule => m.id) x ∉ ([] : List (String × NetatmoModule)).map Prod.fst := by
    intro x hx
    simp
  have hmods : (NetatmoHome.ofRaw d).modules
      = d.modules.map (fun m => (m.id, NetatmoModule.ofRaw m)) := by
    have := foldl_dictInsert_eq_map (fun m : RawModule => m.id) NetatmoModule.ofRaw
      d.modules [] hnd h0
    simpa [NetatmoHome.ofRaw] using this
  constructor
  · rw [hmods, List.length_map]
  · intro kv hkv
    rw [hmods] at hkv
    obtain ⟨m, hm, hkv⟩ := List.mem_map.mp hkv
    rw [← hkv]
    exact ⟨rfl, rfl, rfl, rfl⟩

/-- C7: every constructed room's modules map is a subset of its home's
modules map, and an id absent from the home's modules map (for example a
`module_ids` entry naming no module descriptor) is simply excluded from
the room's map, with no error. -/
theorem c7_room_modules_subset (d : RawHome) (rk : String) (room : NetatmoRoom)
    (hroom : dictGet rk (NetatmoHome.ofRaw d).rooms = some room) :
    (∀ k v, dictGet k room.modules = some v →
      dictGet k (NetatmoHome.ofRaw d).modules = some v) ∧
    (∀ k, dictGet k (NetatmoHome.ofRaw d).modules = none →
      dictGet k room.modules = none) := by
  have hrooms : dictGet rk
      (d.rooms.foldl
        (fun acc r => dictInsert r.id
          (NetatmoRoom.ofRaw (NetatmoHome.ofRaw d).modules r) acc) [])
      = some room := hroom
  rcases dictGet_foldl_insert _ _ d.rooms [] rk room hrooms with ⟨rd, hrd, hval⟩ | hacc
  · have hsub : ∀ k v, dictGet k room.modules = some v →
        dictGet k (NetatmoHome.ofRaw d).modules = some v := by
      intro k v hv
      rw [hval] at hv
      have hv' : dictGet k ((NetatmoHome.ofRaw d).modules.filter
          (fun kv => rd.module_ids.contains kv.1)) = some v := hv
      exact dictGet_filter_key _ hv'
    refine ⟨hsub, ?_⟩
    intro k hk
    cases hv : dictGet k room.modules with
    | none => rfl
    | some v =>
      have := hsub k v hv
      rw [hk] at this
      exact Option.noConfusion this
  · simp [dictGet] at hacc

/-- What the routing of the status branch of `process` actually does:
on a registered home it runs that home's status update on the payload;
on a missing id it raises `KeyError` (`none`) when the homes map is a
plain dict, but silently records the raw payload when the class-level
`defaultdict` is still in place. -/
theorem process_status_routing (fuel : Nat) (reg : Registry) (p : StatusPayload) :
    (∀ h, dictGet p.home.id reg.homes = some (.home h) →
      process fuel reg (.status p) = (run fuel (.homeUpd p) h).map
        (fun h' => { reg with homes := dictInsert p.home.id (.home h') reg.homes })) ∧
    (dictGet p.home.id reg.homes = none → reg.usesDefault = false →
      process fuel reg (.status p) = none) ∧
    (dictGet p.home.id reg.homes = none → reg.usesDefault = true →
      process fuel reg (.status p)
        = some { reg with homes := dictInsert p.home.id (.rawDict p) reg.homes }) := by
  refine ⟨?_, ?_, ?_⟩
  · intro h hh
    simp only [process, hh]
    cases hrun : run fuel (.homeUpd p) h <;> simp [hrun]
  · intro hh hd
    simp [process, hh, hd]
  · intro hh hd
    simp [process, hh, hd]

/-- The pristine registry: no topology processed yet, `self.homes` is
still the class-level `defaultdict(dict)`. -/
def freshRegistry : Registry := { usesDefault := true, homes := [] }

/-- A status payload referencing home id `"h1"`. -/
def c3Payload : StatusPayload := { home := { id := "h1" }, errors := [] }

/-- C3 divergence witness: on a pristine registry, a status payload for
the unregistered home id `"h1"` does not fail at all — the class-level
`defaultdict(dict)` creates an empty plain dict for `"h1"` and
`dict.update` merges the payload into it.  No `InvalidHome` (nor any
exception) is raised. -/
theorem c3_defaultdict_swallows_unknown_home :
    dictGet "h1" freshRegistry.homes = none ∧
    process 5 freshRegistry (.status c3Payload)
      = some { usesDefault := true, homes := [("h1", .rawDict c3Payload)] } :=
  ⟨rfl, rfl⟩

/-! ### Schedule queries -/

theorem find?_of_filter_singleton {α : Type} (p : α → Bool) :
    ∀ (l : List α) (x : α), l.filter p = [x] → l.find? p = some x := by
  intro l
  induction l with
  | nil => intro x h; simp at h
  | cons a l ih =>
    intro x h
    cases hp : p a with
    | true =>
      rw [List.filter_cons_of_pos (by simpa using hp)] at h
      injection h with h1 h2
      rw [List.find?_cons_of_pos _ (by simpa using hp), h1]
    | false =>
      rw [List.filter_cons_of_neg (by simpa using hp)] at h
      rw [List.find?_cons_of_neg _ (by simpa using hp)]
      exact ih x h

/-- C9: `get_selected_schedule` returns none when no schedule is
selected, and the unique selected schedule when exactly one is (stated
via the filter of selected entries being a singleton); `get_hg_temp` and
`get_away_temp` mirror the selected schedule's fields, and are unset
when no schedule is selected. -/
theorem c9_selected_schedule_queries (h : NetatmoHome) :
    ((∀ kv ∈ h.schedules, kv.2.selected = false) →
      h.get_selected_schedule = none ∧ h.get_hg_temp = none ∧
        h.get_away_temp = none) ∧
    (∀ k s, h.schedules.filter (fun kv => kv.2.selected) = [(k, s)] →
      h.get_selected_schedule = some s ∧ h.get_hg_temp = s.hg_temp ∧
        h.get_away_temp = s.away_temp) := by
  constructor
  · intro hall
    have hfind : h.schedules.find? (fun kv => kv.2.selected) = none := by
      rw [List.find?_eq_none]
      intro kv hkv
      simp [hall kv hkv]
    have hsel : h.get_selected_schedule = none := by
      rw [NetatmoHome.get_selected_schedule, hfind]
      rfl
    refine ⟨hsel, ?_, ?_⟩
    · rw [NetatmoHome.get_hg_temp, hsel]
    · rw [NetatmoHome.get_away_temp, hsel]
  · intro k s hfilter
    have hfind := find?_of_filter_singleton _ h.schedules (k, s) hfilter
    have hsel : h.get_selected_schedule = some s := by
      rw [NetatmoHome.get_selected_schedule, hfind]
      rfl
    refine ⟨hsel, ?_, ?_⟩
    · rw [NetatmoHome.get_hg_temp, hsel]
    · rw [NetatmoHome.get_away_temp, hsel]

/-- C10: the room status update routine never writes
`heating_power_request` (it writes only `reachable`,
`therm_measured_temperature`, `therm_setpoint_mode`,
`therm_setpoint_temperature`), so across every sequence of
reconciliations each room's `heating_power_request` keeps its value —
in particular its initial unset value. -/
theorem c10_heating_power_request_never_written :
    (∀ (r : NetatmoRoom) (d : StatusRaw),
      (r.applyRaw d).heating_power_request = r.heating_power_request) ∧
    ∀ (fuel : Nat) (ps : List StatusPayload) (st st' : NetatmoHome),
      reconcile fuel st ps = some st' →
      ∀ k r, dictGet k st.rooms = some r →
        ∃ r', dictGet k st'.rooms = some r' ∧
          r'.heating_power_request = r.heating_power_request := by
  refine ⟨fun r d => rfl, ?_⟩
  intro fuel ps
  induction ps with
  | nil =>
    intro st st' h k r hr
    rw [reconcile] at h
    injection h with h
    subst h
    exact ⟨r, hr, rfl⟩
  | cons p ps ih =>
    intro st st' h k r hr
    rw [reconcile] at h
    cases h1 : NetatmoHome.update fuel st p with
    | none => rw [h1] at h; exact Option.noConfusion h
    | some st1 =>
      rw [h1] at h
      have hstep : ∃ r1, dictGet k st1.rooms = some r1 ∧
          r1.heating_power_request = r.heating_power_request := by
        rcases run_get_room h1 k with heq | ⟨d', hd', heq⟩
        · rw [heq, hr]
          exact ⟨r, rfl, rfl⟩
        · rw [heq, hr]
          exact ⟨r.applyRaw d', rfl, rfl⟩
      obtain ⟨r1, hr1, hpr1⟩ := hstep
      obtain ⟨r', hr', hpr'⟩ := ih st1 st' h k r1 hr1
      exact ⟨r', hr', hpr'.trans hpr1⟩

/-! ### The command interface -/

theorem buildPostParams_spec (hid m : String) (et : Option Int) (sid : Option String) :
    (buildPostParams hid m et sid).home_id = hid ∧
    (buildPostParams hid m et sid).mode = m ∧
    ((buildPostParams hid m et sid).endtime.isSome = true →
      (m = "hg" ∨ m = "away") ∧ et.isSome = true) ∧
    ((buildPostParams hid m et sid).schedule_id.isSome = true →
      m = "schedule" ∧ sid.isSome = true) := by
  cases et <;> cases sid <;> simp only [buildPostParams] <;>
    first
      | (split_ifs <;> simp_all)
      | simp_all

/-- C8: `async_set_thermmode` raises `InvalidHome` on an unknown home id;
on a registered home it raises `NoSchedule` when a given schedule id is
invalid for that home, and `NoSchedule` when the mode is absent; with
mode `"away"` and an end time it posts a body whose `endtime` is the
decimal string of the end time and whose `schedule_id` is absent; and in
every successful request body, `endtime` is present only when the mode
is `"hg"` or `"away"`, and `schedule_id` only when the mode is
`"schedule"`. -/
theorem c8_set_thermmode_contract (reg : Registry) (hid : String) :
    (dictGet hid reg.homes = none → ∀ mode et sid,
      async_set_thermmode reg hid mode et sid = .error .invalidHome) ∧
    (∀ h, dictGet hid reg.homes = some (.home h) → ∀ sid,
      h.is_valid_schedule sid = false → ∀ mode et,
      async_set_thermmode reg hid mode et (some sid) = .error .noSchedule) ∧
    (∀ e, dictGet hid reg.homes = some e → ∀ et,
      async_set_thermmode reg hid none et none = .error .noSchedule) ∧
    (∀ e, dictGet hid reg.homes = some e → ∀ t : Int,
      async_set_thermmode reg hid (some "away") (some t) none
        = .ok { home_id := hid, mode := "away", endtime := some (toString t),
                schedule_id := none }) ∧
    (∀ mode et sid pp, async_set_thermmode reg hid (some mode) et sid = .ok pp →
      (pp.endtime.isSome = true → mode = "hg" ∨ mode = "away") ∧
      (pp.schedule_id.isSome = true → mode = "schedule")) := by
  refine ⟨?_, ?_, ?_, ?_, ?_⟩
  · intro hh mode et sid
    simp [async_set_thermmode, hh]
  · intro h hh sid hs mode et
    simp [async_set_thermmode, hh, hs]
  · intro e he et
    cases e <;> simp [async_set_thermmode, he]
  · intro e he t
    cases e <;>
      simp [async_set_thermmode, he, buildPostParams]
  · intro mode et sid pp hok
    have hpp : pp = buildPostParams hid mode et sid := by
      rw [async_set_thermmode] at hok
      cases hh : dictGet hid reg.homes with
      | none => rw [hh] at hok; exact Except.noConfusion hok
      | some e =>
        rw [hh] at hok
        cases sid with
        | none =>
          simp only [] at hok
          injection hok with hok
          exact hok.symm
        | some s =>
          cases e with
          | rawDict q => simp at hok
          | home h =>
            simp only [] at hok
            split at hok
            · injection hok with hok
              exact hok.symm
            · exact Except.noConfusion hok
    subst hpp
    obtain ⟨-, -, hend, hsid⟩ := buildPostParams_spec hid mode et sid
    exact ⟨fun he => (hend he).1, fun hs => (hsid hs).1⟩

/-- C6: applying the same status update payload twice yields exactly the
state reached by applying it once.  This holds for every home whose maps
are duplicate-free (every home modelling Python dicts) and every status
payload — in particular for a home where a bridge module `A` (unreachable
in the payload) bridges `B` and `C` with `C` assigned to room `R`. -/
theorem c6_status_update_idempotent (fuel : Nat) (st st' : NetatmoHome)
    (p : StatusPayload) (hm : (st.modules.map Prod.fst).Nodup)
    (hr : (st.rooms.map Prod.fst).Nodup)
    (h : NetatmoHome.update fuel st p = some st') :
    NetatmoHome.update fuel st' p = some st' :=
  run_idem hm hr h

/-! ### Concrete instances for the witnesses -/

/-- A topology with a bridge relay `A` bridging valves `B` and `C`, `C`
assigned to room `R` (whose descriptor also names the unknown module id
`"X"`), and two schedules of which `s1` is selected. -/
def demoTopology : RawHome :=
  { id := "h1"
    name := some "Home"
    modules := [
      { id := "A", name := "relay", type := "NAPlug", modules_bridged := ["B", "C"] },
      { id := "B", name := "valve b", type := "NRV", bridge := some "A" },
      { id := "C", name := "valve c", type := "NRV", room_id := some "R",
        bridge := some "A" }]
    rooms := [{ id := "R", name := "living", module_ids := ["C", "X"] }]
    schedules := [
      { id := "s1", name := "week", selected := some true, hg_temp := some 7,
        away_temp := some 12 },
      { id := "s2", name := "other" }] }

def demoHome : NetatmoHome := NetatmoHome.ofRaw demoTopology

/-- The status dict for module `A` (no `reachable` key, so it defaults to
false and the cascade fires). -/
def demoRaw : StatusRaw := { id := some "A", battery_level := some 55 }

def demoPayload : StatusPayload :=
  { home := { id := "h1", modules := [demoRaw] }, errors := [] }

def demoModA : NetatmoModule :=
  { entity_id := "A", name := "relay", device_type := "NAPlug", room_id := none,
    reachable := false, bridge := none, modules := ["B", "C"] }

def demoRoom : NetatmoRoom :=
  NetatmoRoom.ofRaw demoHome.modules { id := "R", name := "living", module_ids := ["C", "X"] }

def demoSchedule : NetatmoSchedule :=
  { entity_id := "s1", name := "week", home_id := "h1", selected := true,
    away_temp := some 12, hg_temp := some 7 }

def demoRegistry : Registry := { usesDefault := false, homes := [("h1", .home demoHome)] }

def c1Result : NetatmoHome := (NetatmoModule.update 9 demoHome "A" demoRaw).getD demoHome

theorem c1_witness :
    NetatmoModule.update 9 demoHome "A" demoRaw = some c1Result ∧
    (∃ b, dictGet "C" demoHome.modules = some b ∧
      dictGet "C" c1Result.modules = some (b.applyRaw demoRaw) ∧
      ∀ rid, truthy b.room_id = some rid →
        ∃ r, dictGet rid demoHome.rooms = some r ∧
          dictGet rid c1Result.rooms = some (r.applyRaw demoRaw)) :=
  ⟨by decide,
   c1_cascade_propagates_raw 9 demoHome c1Result "A" demoRaw demoModA
     (by decide) (by decide) (by decide) "C" (by decide)⟩

def c4Payload : StatusPayload := { home := { id := "h1" }, errors := [some "B"] }

def c4Result : NetatmoHome := (run 9 (.errs c4Payload.errors) demoHome).getD demoHome

theorem c4_witness :
    run 9 (.errs c4Payload.errors) demoHome = some c4Result ∧
    (∃ v, dictGet "B" c4Result.modules = some v ∧ v.reachable = false ∧
      v.battery_level = none ∧ v.battery_state = none ∧ v.boiler_status = none) :=
  ⟨by decide,
   c4_error_entry_resets 9 c4Payload demoHome c4Result "B" (by decide) (by decide)⟩

theorem c5_witness :
    (demoTopology.modules.map RawModule.id).Nodup ∧
    (NetatmoHome.ofRaw demoTopology).modules.length = demoTopology.modules.length :=
  ⟨by decide, (c5_topology_builds_all_modules demoTopology (by decide)).1⟩

def c6Result : NetatmoHome := (NetatmoHome.update 9 demoHome demoPayload).getD demoHome

theorem c6_witness :
    NetatmoHome.update 9 demoHome demoPayload = some c6Result ∧
    NetatmoHome.update 9 c6Result demoPayload = some c6Result :=
  ⟨by decide,
   c6_status_update_idempotent 9 demoHome c6Result demoPayload
     (by decide) (by decide) (by decide)⟩

theorem c7_witness :
    dictGet "R" (NetatmoHome.ofRaw demoTopology).rooms = some demoRoom ∧
    dictGet "C" demoRoom.modules = dictGet "C" (NetatmoHome.ofRaw demoTopology).modules ∧
    dictGet "X" demoRoom.modules = none := by
  refine ⟨by decide, ?_, ?_⟩
  · cases hv : dictGet "C" demoRoom.modules with
    | none => exact absurd hv (by decide)
    | some v =>
      exact ((c7_room_modules_subset demoTopology "R" demoRoom (by decide)).1 "C" v hv).symm
  · exact (c7_room_modules_subset demoTopology "R" demoRoom (by decide)).2 "X" (by decide)

theorem c8_witness :
    async_set_thermmode demoRegistry "nope" (some "away") none none
      = .error .invalidHome ∧
    async_set_thermmode demoRegistry "h1" (some "schedule") none (some "bogus")
      = .error .noSchedule ∧
    async_set_thermmode demoRegistry "h1" none none none = .error .noSchedule ∧
    async_set_thermmode demoRegistry "h1" (some "away") (some 3600) none
      = .ok { home_id := "h1", mode := "away", endtime := some "3600",
              schedule_id := none } := by
  refine ⟨(c8_set_thermmode_contract demoRegistry "nope").1 (by decide) _ _ _,
    (c8_set_thermmode_contract demoRegistry "h1").2.1 demoHome (by decide) "bogus"
      (by decide) (some "schedule") none,
    (c8_set_thermmode_contract demoRegistry "h1").2.2.1 (.home demoHome) (by decide) none,
    ?_⟩
  have h := (c8_set_thermmode_contract demoRegistry "h1").2.2.2.1 (.home demoHome)
    (by decide) 3600
  have ht : toString (3600 : Int) = "3600" := by decide
  rw [ht] at h
  exact h

theorem c9_witness :
    demoHome.schedules.filter (fun kv => kv.2.selected) = [("s1", demoSchedule)] ∧
    demoHome.get_selected_schedule = some demoSchedule ∧
    demoHome.get_hg_temp = demoSchedule.hg_temp ∧
    demoHome.get_away_temp = demoSchedule.away_temp := by
  have h := (c9_selected_schedule_queries demoHome).2 "s1" demoSchedule (by decide)
  exact ⟨by decide, h.1, h.2.1, h.2.2⟩

def c10Result : NetatmoHome := (reconcile 9 demoHome [demoPayload]).getD demoHome

theorem c10_witness :
    reconcile 9 demoHome [demoPayload] = some c10Result ∧
    (∃ r', dictGet "R" c10Result.rooms = some r' ∧
      r'.heating_power_request = demoRoom.heating_power_request) :=
  ⟨by decide,
   c10_heating_power_request_never_written.2 9 [demoPayload] demoHome c10Result
     (by decide) "R" demoRoom (by decide)⟩

end Pyatmo
